import Mathlib

/-!
# Chess rules engine (`src/game.cpp`): shallow embedding and verified properties

The embedding follows `src/game.cpp` function by function.

* `int` coordinates are `Int`.  Every caller of a piece rule passes coordinates in `[0,8)`
  (after `isWithinBounds`, or from literal `0..7` loops), so no `int` arithmetic overflows.
* `std::unique_ptr<Piece>` cells are `Option Piece` (`none` is the null pointer).
* Operations whose behaviour is undefined in C++ (integer division by zero, `operator[]`
  outside the vector, reading an uninitialised `int`, dereferencing a null pointer) return
  `Except.error` with the corresponding `Fault`.
* `for` loops with an early `return` are recursive functions; loops over the literal range
  `0..7` recurse over the list `idx8`; the three path-walk loops recurse on a fuel argument
  that is proved sufficient (`rook_fuel`, `bishop_fuel`, `queen_fuel`).
-/

namespace Chess

/-! ## Data model -/

/-- Ways in which the C++ code leaves defined behaviour. -/
inductive Fault where
  | divisionByZero
  | outOfRange
  | uninitializedRead
  | nullDereference
  | fuelExhausted
deriving DecidableEq, Repr

deriving instance DecidableEq for Except

/-- The six piece classes.  Each class stores its `symbol`, fixed by the constructor argument
`isWhite`; `Pawn` additionally stores `isWhite` and `isFirstMove`. -/
inductive Piece where
  | rook (isWhite : Bool)
  | knight (isWhite : Bool)
  | bishop (isWhite : Bool)
  | queen (isWhite : Bool)
  | king (isWhite : Bool)
  | pawn (isWhite : Bool) (isFirstMove : Bool)
deriving DecidableEq, Repr

/-- `getSymbol`: upper-case letter for White, lower-case for Black. -/
def Piece.getSymbol : Piece → Char
  | .rook w => if w then 'R' else 'r'
  | .knight w => if w then 'N' else 'n'
  | .bishop w => if w then 'B' else 'b'
  | .queen w => if w then 'Q' else 'q'
  | .king w => if w then 'K' else 'k'
  | .pawn w _ => if w then 'P' else 'p'

/-- The constructor argument `isWhite` of a piece. -/
def Piece.isWhite : Piece → Bool
  | .rook w => w
  | .knight w => w
  | .bishop w => w
  | .queen w => w
  | .king w => w
  | .pawn w _ => w

/-- `Pawn::move()` applied through `dynamic_cast<Pawn*>`: clears `isFirstMove` of a pawn and
leaves every other piece alone. -/
def Piece.move : Piece → Piece
  | .pawn w _ => .pawn w false
  | p => p

/-- The 8×8 grid `std::vector<std::vector<std::unique_ptr<Piece>>>` built by
`initializeBoard` (never resized afterwards). -/
abbrev Board := Fin 8 → Fin 8 → Option Piece

/-- The literal loop range `0 .. 7`. -/
def idx8 : List (Fin 8) := [0, 1, 2, 3, 4, 5, 6, 7]

/-- Read of `board[x][y]` with `int` indices: undefined outside the grid. -/
def Board.cell (board : Board) (x y : Int) : Except Fault (Option Piece) :=
  if 0 ≤ x ∧ x < 8 ∧ 0 ≤ y ∧ y < 8 then
    .ok (board (Fin.ofNat x.toNat) (Fin.ofNat y.toNat))
  else .error .outOfRange

/-- Occupant of a square for specification purposes: `none` for an empty square and for
coordinates off the board. -/
def Board.occupant (board : Board) (x y : Int) : Option Piece :=
  if 0 ≤ x ∧ x < 8 ∧ 0 ≤ y ∧ y < 8 then
    board (Fin.ofNat x.toNat) (Fin.ofNat y.toNat)
  else none

/-- Assignment `board[x][y] = v`.  Every such assignment in the source follows a read of the
same cell in the same call, so the indices are in range whenever it is reached. -/
def Board.set (board : Board) (x y : Int) (v : Option Piece) : Board :=
  fun i j => if (i : Int) = x ∧ (j : Int) = y then v else board i j

/-- Move assignment `board[dx][dy] = std::move(board[sx][sy])` on `unique_ptr`: the target
takes the source pointer and the source becomes null; a self-move leaves the cell as it is
(`reset(u.release())`). -/
def Board.moveAssign (board : Board) (dx dy sx sy : Int) : Except Fault Board :=
  if dx = sx ∧ dy = sy then do
    let _ ← board.cell sx sy
    pure board
  else do
    let v ← board.cell sx sy
    pure ((board.set dx dy v).set sx sy none)

/-- `std::abs` on `int`. -/
def cabs (v : Int) : Int := if v < 0 then -v else v

/-- C++ `int` division: truncating, undefined for a zero divisor. -/
def cdiv (a b : Int) : Except Fault Int :=
  if b = 0 then .error .divisionByZero else .ok (Int.tdiv a b)

/-! ## Piece rules -/

/-- Loop `for (int y = startY + step; y != endY; y += step) if (board[startX][y]) return false;`
(lines 20-22 and 83-85).  `ok true`: the loop ran to its end; `ok false`: it returned false. -/
def walkRank (board : Board) (startX endY step : Int) : Nat → Int → Except Fault Bool
  | 0, _ => .error .fuelExhausted
  | fuel + 1, y =>
    if y = endY then .ok true
    else do
      let c ← board.cell startX y
      if c.isSome then pure false
      else walkRank board startX endY step fuel (y + step)

/-- Loop `for (int x = startX + step; x != endX; x += step) if (board[x][startY]) return false;`
(lines 25-27 and 88-90). -/
def walkFile (board : Board) (startY endX step : Int) : Nat → Int → Except Fault Bool
  | 0, _ => .error .fuelExhausted
  | fuel + 1, x =>
    if x = endX then .ok true
    else do
      let c ← board.cell x startY
      if c.isSome then pure false
      else walkFile board startY endX step fuel (x + step)

/-- Loop `for (int i = 1; i < dx; ++i) if (board[startX + i*stepX][startY + i*stepY]) return false;`
(lines 62-64 and 94-96). -/
def walkDiag (board : Board) (startX startY stepX stepY dx : Int) :
    Nat → Int → Except Fault Bool
  | 0, _ => .error .fuelExhausted
  | fuel + 1, i =>
    if i < dx then do
      let c ← board.cell (startX + i * stepX) (startY + i * stepY)
      if c.isSome then pure false
      else walkDiag board startX startY stepX stepY dx fuel (i + 1)
    else .ok true

/-- `Rook::isValidMove` (lines 16-30). -/
def Rook.isValidMove (startX startY endX endY : Int) (board : Board) : Except Fault Bool :=
  if startX ≠ endX ∧ startY ≠ endY then pure false
  else if startX = endX then do
    let step ← cdiv (endY - startY) (cabs (endY - startY))
    walkRank board startX endY step (endY - startY).natAbs (startY + step)
  else do
    let step ← cdiv (endX - startX) (cabs (endX - startX))
    walkFile board startY endX step (endX - startX).natAbs (startX + step)

/-- `Knight::isValidMove` (lines 41-45). -/
def Knight.isValidMove (startX startY endX endY : Int) (_board : Board) : Except Fault Bool :=
  let dx := cabs (endX - startX)
  let dy := cabs (endY - startY)
  pure (decide ((dx = 2 ∧ dy = 1) ∨ (dx = 1 ∧ dy = 2)))

/-- `Bishop::isValidMove` (lines 56-66). -/
def Bishop.isValidMove (startX startY endX endY : Int) (board : Board) : Except Fault Bool :=
  let dx := cabs (endX - startX)
  let dy := cabs (endY - startY)
  if dx ≠ dy then pure false
  else do
    let stepX ← cdiv (endX - startX) dx
    let stepY ← cdiv (endY - startY) dy
    walkDiag board startX startY stepX stepY dx dx.toNat 1

/-- `Queen::isValidMove` (lines 77-99). -/
def Queen.isValidMove (startX startY endX endY : Int) (board : Board) : Except Fault Bool :=
  let dx := cabs (endX - startX)
  let dy := cabs (endY - startY)
  if dx ≠ dy ∧ startX ≠ endX ∧ startY ≠ endY then pure false
  else if startX = endX then do
    let step ← cdiv (endY - startY) (cabs (endY - startY))
    walkRank board startX endY step (endY - startY).natAbs (startY + step)
  else if startY = endY then do
    let step ← cdiv (endX - startX) (cabs (endX - startX))
    walkFile board startY endX step (endX - startX).natAbs (startX + step)
  else do
    let stepX ← cdiv (endX - startX) dx
    let stepY ← cdiv (endY - startY) dy
    walkDiag board startX startY stepX stepY dx dx.toNat 1

/-- `King::isValidMove` (lines 110-112). -/
def King.isValidMove (startX startY endX endY : Int) (_board : Board) : Except Fault Bool :=
  pure (decide (cabs (endX - startX) ≤ 1 ∧ cabs (endY - startY) ≤ 1))

/-- `Pawn::isValidMove` (lines 123-129); `&&` short-circuits, so a cell is read only when the
tests to its left hold. -/
def Pawn.isValidMove (isWhite isFirstMove : Bool) (startX startY endX endY : Int)
    (board : Board) : Except Fault Bool := do
  let direction : Int := if isWhite then -1 else 1
  let c1 ←
    if startX + direction = endX ∧ startY = endY then do
      let d ← board.cell endX endY
      pure d.isNone
    else pure false
  if c1 then pure true
  else do
    let c2 ←
      if startX + direction = endX ∧ cabs (startY - endY) = 1 then do
        let d ← board.cell endX endY
        pure d.isSome
      else pure false
    if c2 then pure true
    else do
      let c3 ←
        if isFirstMove = true ∧ startX + 2 * direction = endX ∧ startY = endY then do
          let d ← board.cell endX endY
          if d.isNone then do
            let m ← board.cell (startX + direction) startY
            pure m.isNone
          else pure false
        else pure false
      if c3 then pure true else pure false

/-- Virtual dispatch of `isValidMove` on the dynamic class of the piece. -/
def Piece.isValidMove (p : Piece) (startX startY endX endY : Int) (board : Board) :
    Except Fault Bool :=
  match p with
  | .rook _ => Rook.isValidMove startX startY endX endY board
  | .knight _ => Knight.isValidMove startX startY endX endY board
  | .bishop _ => Bishop.isValidMove startX startY endX endY board
  | .queen _ => Queen.isValidMove startX startY endX endY board
  | .king _ => King.isValidMove startX startY endX endY board
  | .pawn w f => Pawn.isValidMove w f startX startY endX endY board

/-! ## Board engine -/

/-- `Board::isWithinBounds` (lines 303-305). -/
def isWithinBounds (startX startY endX endY : Int) : Bool :=
  decide (startX ≥ 0) && decide (startX < 8) && decide (startY ≥ 0) && decide (startY < 8) &&
    decide (endX ≥ 0) && decide (endX < 8) && decide (endY ≥ 0) && decide (endY < 8)

/-- `Board::movePiece` (lines 169-188).  Returns the `bool` result and the grid after the
call; `||` and `&&` short-circuit, so the grid is read only after the bounds test. -/
def movePiece (board : Board) (startX startY endX endY : Int) (isWhiteTurn : Bool) :
    Except Fault (Bool × Board) :=
  if !isWithinBounds startX startY endX endY then pure (false, board)
  else do
    let src ← board.cell startX startY
    match src with
    | none => pure (false, board)
    | some p =>
      if (isWhiteTurn && p.getSymbol.isLower) || (!isWhiteTurn && p.getSymbol.isUpper) then
        pure (false, board)
      else do
        let dst ← board.cell endX endY
        let ownTarget :=
          match dst with
          | none => false
          | some q => (isWhiteTurn && q.getSymbol.isUpper) || (!isWhiteTurn && q.getSymbol.isLower)
        if ownTarget then pure (false, board)
        else do
          let valid ← p.isValidMove startX startY endX endY board
          if valid then do
            let board1 := board.set startX startY (some p.move)
            let board2 ← board1.moveAssign endX endY startX startY
            let board3 := board2.set startX startY none
            pure (true, board3)
          else pure (false, board)

/-- Inner loop of the king search (lines 195-201): the first column of `row` holding
`kingSymbol`, at which the loop `break`s. -/
def findKingInRow (board : Board) (kingSymbol : Char) (row : Fin 8) :
    List (Fin 8) → Option (Fin 8)
  | [] => none
  | col :: cols =>
    match board row col with
    | some p => if p.getSymbol = kingSymbol then some col else findKingInRow board kingSymbol row cols
    | none => findKingInRow board kingSymbol row cols

/-- Outer loop of the king search (lines 194-202).  The state is the pair `kingX, kingY`,
`none` while still uninitialised; `break` leaves only the inner loop, so a later row
overwrites an earlier find. -/
def findKing (board : Board) (kingSymbol : Char) :
    List (Fin 8) → Option (Int × Int) → Option (Int × Int)
  | [], king => king
  | row :: rows, king =>
    match findKingInRow board kingSymbol row idx8 with
    | some col => findKing board kingSymbol rows (some ((row : Int), (col : Int)))
    | none => findKing board kingSymbol rows king

/-- Inner loop of the attacker scan (lines 205-211); `ok true` when `return true` is reached.
`kingX, kingY` are read only when an opposing piece is found. -/
def attackInRow (board : Board) (isWhite : Bool) (king : Option (Int × Int)) (row : Fin 8) :
    List (Fin 8) → Except Fault Bool
  | [] => pure false
  | col :: cols => do
    let hit ←
      match board row col with
      | none => pure false
      | some p =>
        if (isWhite && p.getSymbol.isLower) || (!isWhite && p.getSymbol.isUpper) then
          match king with
          | none => .error .uninitializedRead
          | some (kingX, kingY) => p.isValidMove row col kingX kingY board
        else pure false
    if hit then pure true else attackInRow board isWhite king row cols

/-- Outer loop of the attacker scan (lines 204-212). -/
def attackScan (board : Board) (isWhite : Bool) (king : Option (Int × Int)) :
    List (Fin 8) → Except Fault Bool
  | [] => pure false
  | row :: rows => do
    let hit ← attackInRow board isWhite king row idx8
    if hit then pure true else attackScan board isWhite king rows

/-- `Board::isCheck` (lines 190-215). -/
def isCheck (board : Board) (isWhite : Bool) : Except Fault Bool :=
  let kingSymbol : Char := if isWhite then 'K' else 'k'
  let king := findKing board kingSymbol idx8 none
  attackScan board isWhite king idx8

/-- Body of the innermost loop of `isCheckmate` (lines 226-240).  The first component is
`some false` when `return false` is executed and `none` when the loop goes on. -/
def tryMove (isWhite : Bool) (startX startY endX endY : Fin 8) (board : Board) :
    Except Fault (Option Bool × Board) :=
  match board startX startY with
  | none => .error .nullDereference
  | some p => do
    let valid ← p.isValidMove startX startY endX endY board
    if valid then do
      let temp ← board.cell endX endY
      let board1 := board.set endX endY none
      let board2 ← board1.moveAssign endX endY startX startY
      let board3 := board2.set startX startY none
      let check ← isCheck board3 isWhite
      if !check then do
        let board4 ← board3.moveAssign startX startY endX endY
        let board5 := board4.set endX endY temp
        pure (some false, board5)
      else do
        let board4 ← board3.moveAssign startX startY endX endY
        let board5 := board4.set endX endY temp
        pure (none, board5)
    else pure (none, board)

/-- Loop over `endY` (line 225). -/
def endYLoop (isWhite : Bool) (startX startY endX : Fin 8) :
    List (Fin 8) → Board → Except Fault (Option Bool × Board)
  | [], board => pure (none, board)
  | endY :: rest, board => do
    let r ← tryMove isWhite startX startY endX endY board
    match r.1 with
    | some v => pure (some v, r.2)
    | none => endYLoop isWhite startX startY endX rest r.2

/-- Loop over `endX` (line 224). -/
def endXLoop (isWhite : Bool) (startX startY : Fin 8) :
    List (Fin 8) → Board → Except Fault (Option Bool × Board)
  | [], board => pure (none, board)
  | endX :: rest, board => do
    let r ← endYLoop isWhite startX startY endX idx8 board
    match r.1 with
    | some v => pure (some v, r.2)
    | none => endXLoop isWhite startX startY rest r.2

/-- The test `board[startX][startY] && (own colour)` of lines 222-223 and 253-254. -/
def ownPieceAt (board : Board) (isWhite : Bool) (startX startY : Fin 8) : Bool :=
  match board startX startY with
  | none => false
  | some p => (isWhite && p.getSymbol.isUpper) || (!isWhite && p.getSymbol.isLower)

/-- Loop over `startY` (line 221). -/
def startYLoop (isWhite : Bool) (startX : Fin 8) :
    List (Fin 8) → Board → Except Fault (Option Bool × Board)
  | [], board => pure (none, board)
  | startY :: rest, board =>
    if ownPieceAt board isWhite startX startY then do
      let r ← endXLoop isWhite startX startY idx8 board
      match r.1 with
      | some v => pure (some v, r.2)
      | none => startYLoop isWhite startX rest r.2
    else startYLoop isWhite startX rest board

/-- Loop over `startX` (line 220). -/
def startXLoop (isWhite : Bool) :
    List (Fin 8) → Board → Except Fault (Option Bool × Board)
  | [], board => pure (none, board)
  | startX :: rest, board => do
    let r ← startYLoop isWhite startX idx8 board
    match r.1 with
    | some v => pure (some v, r.2)
    | none => startXLoop isWhite rest r.2

/-- `Board::isCheckmate` (lines 217-248).  Returns the `bool` result and the grid after the
call (the method is not `const`: it moves pieces and puts them back). -/
def isCheckmate (board : Board) (isWhite : Bool) : Except Fault (Bool × Board) := do
  let check ← isCheck board isWhite
  if !check then pure (false, board)
  else do
    let r ← startXLoop isWhite idx8 board
    match r.1 with
    | some v => pure (v, r.2)
    | none => pure (true, r.2)

/-- Loops over `endY` of `isStalemate` (lines 256-260); `ok true` when `return false` is
reached, that is, when an accepted move is found. -/
def staleEndY (board : Board) (startX startY endX : Fin 8) : List (Fin 8) → Except Fault Bool
  | [] => pure false
  | endY :: rest =>
    match board startX startY with
    | none => .error .nullDereference
    | some p => do
      let valid ← p.isValidMove startX startY endX endY board
      if valid then pure true else staleEndY board startX startY endX rest

/-- Loop over `endX` of `isStalemate` (line 255). -/
def staleEndX (board : Board) (startX startY : Fin 8) : List (Fin 8) → Except Fault Bool
  | [] => pure false
  | endX :: rest => do
    let found ← staleEndY board startX startY endX idx8
    if found then pure true else staleEndX board startX startY rest

/-- Loop over `startY` of `isStalemate` (line 252). -/
def staleStartY (board : Board) (isWhite : Bool) (startX : Fin 8) :
    List (Fin 8) → Except Fault Bool
  | [] => pure false
  | startY :: rest =>
    if ownPieceAt board isWhite startX startY then do
      let found ← staleEndX board startX startY idx8
      if found then pure true else staleStartY board isWhite startX rest
    else staleStartY board isWhite startX rest

/-- Loop over `startX` of `isStalemate` (line 251). -/
def staleStartX (board : Board) (isWhite : Bool) : List (Fin 8) → Except Fault Bool
  | [] => pure false
  | startX :: rest => do
    let found ← staleStartY board isWhite startX idx8
    if found then pure true else staleStartX board isWhite rest

/-- `Board::isStalemate` (lines 250-267). -/
def isStalemate (board : Board) (isWhite : Bool) : Except Fault Bool := do
  let found ← staleStartX board isWhite idx8
  pure (!found)

/-- The grid after `board.resize(8, ...)`: every cell null. -/
def emptyBoard : Board := fun _ _ => none

/-- `Board::initializeBoard` (lines 272-301). -/
def initializeBoard : Board :=
  let board := idx8.foldl
    (fun b i => (b.set 1 i (some (.pawn false true))).set 6 i (some (.pawn true true)))
    emptyBoard
  let board := board.set 0 0 (some (.rook false))
  let board := board.set 0 7 (some (.rook false))
  let board := board.set 7 0 (some (.rook true))
  let board := board.set 7 7 (some (.rook true))
  let board := board.set 0 1 (some (.knight false))
  let board := board.set 0 6 (some (.knight false))
  let board := board.set 7 1 (some (.knight true))
  let board := board.set 7 6 (some (.knight true))
  let board := board.set 0 2 (some (.bishop false))
  let board := board.set 0 5 (some (.bishop false))
  let board := board.set 7 2 (some (.bishop true))
  let board := board.set 7 5 (some (.bishop true))
  let board := board.set 0 3 (some (.queen false))
  let board := board.set 7 3 (some (.queen true))
  let board := board.set 0 4 (some (.king false))
  board.set 7 4 (some (.king true))

/-- Test fixture: the grid holding exactly the listed pieces (earlier entries win). -/
def place (pieces : List (Int × Int × Piece)) : Board :=
  pieces.foldr (fun e b => b.set e.1 e.2.1 (some e.2.2)) emptyBoard

/-- Test fixture: White king on (0,0), Black queen on (1,1), Black king on (2,2).  The White
king is attacked by the queen and each of its three neighbours is attacked too. -/
def cornerMate : Board :=
  place [(0, 0, .king true), (1, 1, .queen false), (2, 2, .king false)]

/-- Test fixture: White king on (1,1) attacked along its rank by a Black rook on (1,7); the
king can step to (0,0). -/
def rookCheck : Board :=
  place [(1, 1, .king true), (1, 7, .rook false)]

/-- The board on which `isCheckmate` calls `isCheck` for the pair `(start, end)`: the state of
the grid after lines 228-230. -/
def hypothetical (board : Board) (sx sy ex ey : Fin 8) : Board :=
  ((if (ex : Int) = sx ∧ (ey : Int) = sy then board.set ex ey none
    else ((board.set ex ey none).set ex ey ((board.set ex ey none) sx sy)).set sx sy none).set
      sx sy none)

/-! ## Specification vocabulary -/

/-- A square with both coordinates in `[0,8)`. -/
def onBoard (x y : Int) : Prop := 0 ≤ x ∧ x < 8 ∧ 0 ≤ y ∧ y < 8

instance (x y : Int) : Decidable (onBoard x y) := by
  unfold onBoard; infer_instance

/-- Every square strictly between files `y1` and `y2` on rank `x` is empty. -/
def rankClear (board : Board) (x y1 y2 : Int) : Prop :=
  ∀ y : Int, min y1 y2 < y → y < max y1 y2 → board.occupant x y = none

/-- Every square strictly between ranks `x1` and `x2` on file `y` is empty. -/
def fileClear (board : Board) (y x1 x2 : Int) : Prop :=
  ∀ x : Int, min x1 x2 < x → x < max x1 x2 → board.occupant x y = none

/-- Every square strictly between origin and destination on their diagonal is empty. -/
def diagClear (board : Board) (startX startY endX endY : Int) : Prop :=
  ∀ k : Int, 0 < k → k < |endX - startX| →
    board.occupant (startX + k * Int.sign (endX - startX))
      (startY + k * Int.sign (endY - startY)) = none

/-- The rook rule as the specification words it: origin and destination share a rank or a
file and every square strictly between them on that line is empty. -/
def rookRule (board : Board) (startX startY endX endY : Int) : Prop :=
  (startX = endX ∧ rankClear board startX startY endY) ∨
    (startY = endY ∧ fileClear board startY startX endX)

/-- The bishop rule as the specification words it: `|Δrank| = |Δfile| > 0` and every square
strictly between on the diagonal is empty. -/
def bishopRule (board : Board) (startX startY endX endY : Int) : Prop :=
  |endX - startX| = |endY - startY| ∧ 0 < |endX - startX| ∧
    diagClear board startX startY endX endY

/-- The square `(startX, startY)` holds a piece of colour `isWhite` whose `isValidMove`
accepts the move to `(endX, endY)`. -/
def acceptsMove (board : Board) (isWhite : Bool) (startX startY endX endY : Fin 8) : Prop :=
  ∃ p, board startX startY = some p ∧ p.isWhite = isWhite ∧
    p.isValidMove startX startY endX endY board = .ok true

/-- The board has exactly one king of colour `isWhite`, standing on `(kingX, kingY)`. -/
def onlyKingAt (board : Board) (isWhite : Bool) (kingX kingY : Fin 8) : Prop :=
  board kingX kingY = some (.king isWhite) ∧
    ∀ i j, board i j = some (.king isWhite) → i = kingX ∧ j = kingY

/-- Forward rank for a pawn: `rank - 1` for White and `rank + 1` for Black. -/
def pawnForward (isWhite : Bool) (x : Int) : Int := if isWhite then x - 1 else x + 1

/-- Pawn case (a): destination one square straight forward and empty. -/
def pawnAdvance (board : Board) (isWhite : Bool) (startX startY endX endY : Int) : Prop :=
  endX = pawnForward isWhite startX ∧ endY = startY ∧ board.occupant endX endY = none

/-- Pawn case (b): destination one square forward, file differing by exactly 1, occupied. -/
def pawnCapture (board : Board) (isWhite : Bool) (startX startY endX endY : Int) : Prop :=
  endX = pawnForward isWhite startX ∧ |endY - startY| = 1 ∧ board.occupant endX endY ≠ none

/-- Pawn case (c): the pawn has never moved, destination two squares straight forward and
empty, intermediate square empty. -/
def pawnDouble (board : Board) (isWhite isFirstMove : Bool) (startX startY endX endY : Int) :
    Prop :=
  isFirstMove = true ∧ endX = pawnForward isWhite (pawnForward isWhite startX) ∧
    endY = startY ∧ board.occupant endX endY = none ∧
    board.occupant (pawnForward isWhite startX) startY = none

/-- Exactly one of three propositions holds. -/
def exactlyOne (a b c : Prop) : Prop := (a ∧ ¬ b ∧ ¬ c) ∨ (¬ a ∧ b ∧ ¬ c) ∨ (¬ a ∧ ¬ b ∧ c)

instance (board : Board) (isWhite : Bool) (startX startY endX endY : Fin 8) :
    Decidable (acceptsMove board isWhite startX startY endX endY) :=
  match h : board startX startY with
  | none => isFalse (by
      rintro ⟨p, hp, _⟩
      rw [h] at hp
      cases hp)
  | some q =>
    if h2 : q.isWhite = isWhite ∧ q.isValidMove startX startY endX endY board = .ok true then
      isTrue ⟨q, h, h2.1, h2.2⟩
    else isFalse (by
      rintro ⟨p, hp, hw, hv⟩
      rw [h] at hp
      injection hp with hp
      rw [← hp] at hw hv
      exact h2 ⟨hw, hv⟩)

/-- The board obtained by relocating the piece on `(startX, startY)` to `(endX, endY)`,
discarding any occupant of the destination; relocating a piece to its own square changes
nothing. -/
def relocate (board : Board) (startX startY endX endY : Fin 8) : Board :=
  fun i j =>
    if i = endX ∧ j = endY then board startX startY
    else if i = startX ∧ j = startY then none
    else board i j

/-- Checkmate as the specification words it: the colour is in check and stays in check after
every relocation that its own pieces' rules accept. -/
def checkmateRule (board : Board) (isWhite : Bool) : Prop :=
  isCheck board isWhite = .ok true ∧
    ∀ startX startY endX endY : Fin 8, acceptsMove board isWhite startX startY endX endY →
      isCheck (relocate board startX startY endX endY) isWhite = .ok true

/-- The eight knight offsets `(±1,±2)`, `(±2,±1)`. -/
def knightOffsets : List (Int × Int) :=
  [(1, 2), (1, -2), (-1, 2), (-1, -2), (2, 1), (2, -1), (-2, 1), (-2, -1)]

/-- The squares `origin + offset` for the eight knight offsets that lie on the board. -/
def knightTargets (x y : Int) : List (Int × Int) :=
  ((knightOffsets.map (fun d => (x + d.1, y + d.2))).filter (fun t => decide (onBoard t.1 t.2)))

/-- Test fixture: calls of `movePiece` made one after another on the same grid, with the list
of their results. -/
def playMoves : Board → List (Int × Int × Int × Int × Bool) → Except Fault (List Bool × Board)
  | board, [] => pure ([], board)
  | board, (sx, sy, ex, ey, w) :: rest => do
    let r ← movePiece board sx sy ex ey w
    let rs ← playMoves r.2 rest
    pure (r.1 :: rs.1, rs.2)

/-- The four calls that lead from the starting position to the fool's mate. -/
def foolsMateMoves : List (Int × Int × Int × Int × Bool) :=
  [(6, 5, 5, 5, true), (1, 4, 3, 4, false), (6, 6, 4, 6, true), (0, 3, 4, 7, false)]

/-- `Board::movePiece` (lines 169-188) with the call of line 178 abstracted: `rule` stands for
`board[startX][startY]->isValidMove`.  `movePiece` is the instance `Piece.isValidMove`; a
result that holds for every `rule` is reached before line 178. -/
def movePieceWith (rule : Piece → Int → Int → Int → Int → Board → Except Fault Bool)
    (board : Board) (startX startY endX endY : Int) (isWhiteTurn : Bool) :
    Except Fault (Bool × Board) :=
  if !isWithinBounds startX startY endX endY then pure (false, board)
  else do
    let src ← board.cell startX startY
    match src with
    | none => pure (false, board)
    | some p =>
      if (isWhiteTurn && p.getSymbol.isLower) || (!isWhiteTurn && p.getSymbol.isUpper) then
        pure (false, board)
      else do
        let dst ← board.cell endX endY
        let ownTarget :=
          match dst with
          | none => false
          | some q => (isWhiteTurn && q.getSymbol.isUpper) || (!isWhiteTurn && q.getSymbol.isLower)
        if ownTarget then pure (false, board)
        else do
          let valid ← rule p startX startY endX endY board
          if valid then do
            let board1 := board.set startX startY (some p.move)
            let board2 ← board1.moveAssign endX endY startX startY
            let board3 := board2.set startX startY none
            pure (true, board3)
          else pure (false, board)

/-- Test fixture: White king on (0,0) and nothing else of White; Black queen on (2,1), Black
king on (7,7).  The White king is not attacked and (0,1), (1,0), (1,1) are all attacked by
the queen. -/
def loneKing : Board :=
  place [(0, 0, .king true), (2, 1, .queen false), (7, 7, .king false)]

/-- The board has exactly one king of the colour. -/
def oneKing (board : Board) (isWhite : Bool) : Prop :=
  ∃ kingX kingY, onlyKingAt board isWhite kingX kingY

/-- Test fixture: White rook on (0,0) next to the Black king on (0,1); White king on (7,7). -/
def kingCapture : Board :=
  place [(0, 0, .rook true), (0, 1, .king false), (7, 7, .king true)]

/-- `Tracks b p b2 q`: after some calls of `movePiece` and `isCheckmate`, starting from the
grid `b`, the grid is `b2` and the piece that stood on square `p` of `b` stands on square `q`
of `b2` (it was carried by the successful moves that started from its square and was never
captured). -/
inductive Tracks : Board → Int × Int → Board → Int × Int → Prop where
  | start (b : Board) (p : Int × Int) : Tracks b p b p
  | carried (sx sy ex ey : Int) (w : Bool) {b b1 b2 : Board} {p : Int × Int} :
      Tracks b p b1 (sx, sy) → movePiece b1 sx sy ex ey w = .ok (true, b2) →
      Tracks b p b2 (ex, ey)
  | bystander (sx sy ex ey : Int) (w : Bool) {b b1 b2 : Board} {p q : Int × Int} :
      Tracks b p b1 q → movePiece b1 sx sy ex ey w = .ok (true, b2) →
      q ≠ (sx, sy) → q ≠ (ex, ey) → Tracks b p b2 q
  | rejected (sx sy ex ey : Int) (w : Bool) {b b1 b2 : Board} {p q : Int × Int} :
      Tracks b p b1 q → movePiece b1 sx sy ex ey w = .ok (false, b2) → Tracks b p b2 q
  | query (w r : Bool) {b b1 b2 : Board} {p q : Int × Int} :
      Tracks b p b1 q → isCheckmate b1 w = .ok (r, b2) → Tracks b p b2 q

/-- Two grids that agree except that pieces of the colour `isWhite` on the first may appear
with `Pawn::move` applied on the second. -/
def flagTwin (isWhite : Bool) (b1 b2 : Board) : Prop :=
  ∀ i j, b1 i j = b2 i j ∨
    ∃ p, b1 i j = some p ∧ b2 i j = some p.move ∧ p.isWhite = isWhite

/-- Test fixture: Black bishop on (0,0), Black king on (0,4), White king on (7,4).  The bishop
is the first Black piece in scan order. -/
def bishopFirst : Board :=
  place [(0, 0, .bishop false), (0, 4, .king false), (7, 4, .king true)]

/-! ## Basic facts about the grid and the arithmetic helpers -/

theorem getSymbol_isUpper (p : Piece) : p.getSymbol.isUpper = p.isWhite := by
  rcases p with w | w | w | w | w | ⟨w, f⟩ <;> cases w <;> rfl

theorem getSymbol_isLower (p : Piece) : p.getSymbol.isLower = !p.isWhite := by
  rcases p with w | w | w | w | w | ⟨w, f⟩ <;> cases w <;> rfl

theorem getSymbol_eq_king (p : Piece) (w : Bool) :
    p.getSymbol = (if w then 'K' else 'k') ↔ p = .king w := by
  rcases p with c | c | c | c | c | ⟨c, f⟩ <;> cases c <;> cases w <;>
    simp [Piece.getSymbol]

theorem fin_ofNat_cast (i : Fin 8) : (Fin.ofNat (i : Int).toNat : Fin 8) = i := by
  apply Fin.ext
  simp [Fin.ofNat, Nat.mod_eq_of_lt i.isLt]

theorem cell_fin (board : Board) (i j : Fin 8) :
    board.cell (i : Int) (j : Int) = .ok (board i j) := by
  have hi := i.isLt
  have hj := j.isLt
  have h : (0 : Int) ≤ i ∧ (i : Int) < 8 ∧ (0 : Int) ≤ j ∧ (j : Int) < 8 := by omega
  simp only [Board.cell, h, and_self, if_true, fin_ofNat_cast]

theorem occupant_fin (board : Board) (i j : Fin 8) :
    board.occupant (i : Int) (j : Int) = board i j := by
  have hi := i.isLt
  have hj := j.isLt
  have h : (0 : Int) ≤ i ∧ (i : Int) < 8 ∧ (0 : Int) ≤ j ∧ (j : Int) < 8 := by omega
  simp only [Board.occupant, h, and_self, if_true, fin_ofNat_cast]

theorem cell_onBoard (board : Board) (x y : Int) (h : onBoard x y) :
    board.cell x y = .ok (board.occupant x y) := by
  unfold onBoard at h
  simp only [Board.cell, Board.occupant, h, and_self, if_true]

theorem onBoard_fin (i j : Fin 8) : onBoard (i : Int) (j : Int) := by
  have hi := i.isLt
  have hj := j.isLt
  unfold onBoard
  omega

theorem exists_fin_of_onBoard (x y : Int) (h : onBoard x y) :
    ∃ i j : Fin 8, (i : Int) = x ∧ (j : Int) = y := by
  unfold onBoard at h
  refine ⟨⟨x.toNat, by omega⟩, ⟨y.toNat, by omega⟩, ?_, ?_⟩ <;> simp <;> omega

theorem cabs_eq_abs (v : Int) : cabs v = |v| := by
  unfold cabs
  split
  · rw [abs_of_neg (by assumption)]
  · rw [abs_of_nonneg (by omega)]

theorem cdiv_cabs_pos (d : Int) (h : 0 < d) : cdiv d (cabs d) = .ok 1 := by
  have hc : cabs d = d := by unfold cabs; rw [if_neg (by omega)]
  have hne : d ≠ 0 := by omega
  simp [cdiv, hc, hne, Int.tdiv_self]

theorem cdiv_cabs_neg (d : Int) (h : d < 0) : cdiv d (cabs d) = .ok (-1) := by
  have hc : cabs d = -d := by unfold cabs; rw [if_pos h]
  have hne : -d ≠ 0 := by omega
  have hne2 : d ≠ 0 := by omega
  simp [cdiv, hc, hne2, Int.tdiv_neg, Int.tdiv_self]

theorem cdiv_zero (a : Int) : cdiv a 0 = .error .divisionByZero := by
  simp [cdiv]

/-! ## The path walks -/

theorem walkRank_up (board : Board) (x endY : Int) (hx : 0 ≤ x ∧ x < 8) (hE : endY ≤ 8) :
    ∀ (n : Nat) (y : Int), y + n = endY → 0 ≤ y →
      ∃ r, walkRank board x endY 1 (n + 1) y = .ok r ∧
        (r = true ↔ ∀ t : Int, y ≤ t → t < endY → board.occupant x t = none) := by
  intro n
  induction n with
  | zero =>
    intro y hy _
    have : y = endY := by simpa using hy
    refine ⟨true, ?_, ?_⟩
    · simp [walkRank, this]
    · simp only [true_iff]
      intro t h1 h2
      omega
  | succ n ih =>
    intro y hy h0
    have hne : y ≠ endY := by push_cast at hy; omega
    have hcell : board.cell x y = .ok (board.occupant x y) :=
      cell_onBoard board x y ⟨hx.1, hx.2, h0, by push_cast at hy; omega⟩
    rw [walkRank, if_neg hne, hcell]
    cases hocc : board.occupant x y with
    | some p =>
      refine ⟨false, by simp [bind, Except.bind, pure, Except.pure], ?_⟩
      simp only [Bool.false_eq_true, false_iff, not_forall]
      exact ⟨y, le_refl y, by push_cast at hy; omega, by simp [hocc]⟩
    | none =>
      obtain ⟨r, hr, hiff⟩ := ih (y + 1) (by push_cast at hy; omega) (by omega)
      refine ⟨r, by simpa [bind, Except.bind] using hr, ?_⟩
      rw [hiff]
      constructor
      · intro h t h1 h2
        by_cases ht : t = y
        · rw [ht]; exact hocc
        · exact h t (by omega) h2
      · intro h t h1 h2
        exact h t (by omega) h2

theorem walkRank_down (board : Board) (x endY : Int) (hx : 0 ≤ x ∧ x < 8) (hE : -1 ≤ endY) :
    ∀ (n : Nat) (y : Int), y = endY + n → y < 8 →
      ∃ r, walkRank board x endY (-1) (n + 1) y = .ok r ∧
        (r = true ↔ ∀ t : Int, endY < t → t ≤ y → board.occupant x t = none) := by
  intro n
  induction n with
  | zero =>
    intro y hy _
    have : y = endY := by simpa using hy
    refine ⟨true, ?_, ?_⟩
    · simp [walkRank, this]
    · simp only [true_iff]
      intro t h1 h2
      omega
  | succ n ih =>
    intro y hy h8
    have hne : y ≠ endY := by push_cast at hy; omega
    have hcell : board.cell x y = .ok (board.occupant x y) :=
      cell_onBoard board x y ⟨hx.1, hx.2, by push_cast at hy; omega, h8⟩
    rw [walkRank, if_neg hne, hcell]
    cases hocc : board.occupant x y with
    | some p =>
      refine ⟨false, by simp [bind, Except.bind, pure, Except.pure], ?_⟩
      simp only [Bool.false_eq_true, false_iff, not_forall]
      exact ⟨y, by push_cast at hy; omega, le_refl y, by simp [hocc]⟩
    | none =>
      obtain ⟨r, hr, hiff⟩ := ih (y + -1) (by push_cast at hy; omega) (by omega)
      refine ⟨r, by simpa [bind, Except.bind] using hr, ?_⟩
      rw [hiff]
      constructor
      · intro h t h1 h2
        by_cases ht : t = y
        · rw [ht]; exact hocc
        · exact h t h1 (by omega)
      · intro h t h1 h2
        exact h t h1 (by omega)


theorem cell_transpose (board : Board) (x y : Int) :
    Board.cell (fun i j => board j i) y x = board.cell x y := by
  unfold Board.cell
  by_cases h : 0 ≤ x ∧ x < 8 ∧ 0 ≤ y ∧ y < 8
  · have h2 : 0 ≤ y ∧ y < 8 ∧ 0 ≤ x ∧ x < 8 := by omega
    rw [if_pos h, if_pos h2]
  · have h2 : ¬ (0 ≤ y ∧ y < 8 ∧ 0 ≤ x ∧ x < 8) := by omega
    rw [if_neg h, if_neg h2]

theorem walkFile_eq_walkRank (board : Board) (y endX step : Int) :
    ∀ (fuel : Nat) (x : Int),
      walkFile board y endX step fuel x =
        walkRank (fun i j => board j i) y endX step fuel x := by
  intro fuel
  induction fuel with
  | zero => intro x; rfl
  | succ n ih =>
    intro x
    rw [walkFile, walkRank, ih, cell_transpose]

theorem occupant_transpose (board : Board) (x y : Int) :
    Board.occupant (fun i j => board j i) y x = board.occupant x y := by
  unfold Board.occupant
  by_cases h : 0 ≤ x ∧ x < 8 ∧ 0 ≤ y ∧ y < 8
  · have h2 : 0 ≤ y ∧ y < 8 ∧ 0 ≤ x ∧ x < 8 := by omega
    rw [if_pos h, if_pos h2]
  · have h2 : ¬ (0 ≤ y ∧ y < 8 ∧ 0 ≤ x ∧ x < 8) := by omega
    rw [if_neg h, if_neg h2]

/-- The rank walk of `Rook::isValidMove` and `Queen::isValidMove` between two distinct files of
the board: it ends without a fault and reports whether the squares in between are empty. -/
theorem rank_walk (board : Board) (x y1 y2 : Int) (hx : 0 ≤ x ∧ x < 8)
    (h1 : 0 ≤ y1 ∧ y1 < 8) (h2 : 0 ≤ y2 ∧ y2 < 8) (hne : y1 ≠ y2) :
    ∃ r, (do
        let step ← cdiv (y2 - y1) (cabs (y2 - y1))
        walkRank board x y2 step (y2 - y1).natAbs (y1 + step)) = .ok r ∧
      (r = true ↔ rankClear board x y1 y2) := by
  rcases lt_or_gt_of_ne hne with hlt | hgt
  · obtain ⟨n, hn, hn2⟩ : ∃ n : Nat, (y2 - y1).natAbs = n + 1 ∧ (n : Int) = y2 - y1 - 1 :=
      ⟨(y2 - y1 - 1).toNat, by omega, by omega⟩
    obtain ⟨r, hr, hiff⟩ := walkRank_up board x y2 hx (by omega) n (y1 + 1) (by omega) (by omega)
    refine ⟨r, ?_, ?_⟩
    · rw [cdiv_cabs_pos _ (by omega), hn]
      simpa [bind, Except.bind] using hr
    · rw [hiff]
      unfold rankClear
      rw [min_eq_left (le_of_lt hlt), max_eq_right (le_of_lt hlt)]
      constructor
      · intro h t ht1 ht2; exact h t (by omega) ht2
      · intro h t ht1 ht2; exact h t (by omega) ht2
  · obtain ⟨n, hn, hn2⟩ : ∃ n : Nat, (y2 - y1).natAbs = n + 1 ∧ (n : Int) = y1 - y2 - 1 :=
      ⟨(y1 - y2 - 1).toNat, by omega, by omega⟩
    obtain ⟨r, hr, hiff⟩ :=
      walkRank_down board x y2 hx (by omega) n (y1 + -1) (by omega) (by omega)
    refine ⟨r, ?_, ?_⟩
    · rw [cdiv_cabs_neg _ (by omega), hn]
      simpa [bind, Except.bind] using hr
    · rw [hiff]
      unfold rankClear
      rw [min_eq_right (le_of_lt hgt), max_eq_left (le_of_lt hgt)]
      constructor
      · intro h t ht1 ht2; exact h t ht1 (by omega)
      · intro h t ht1 ht2; exact h t ht1 (by omega)

/-- The file walk, as `rank_walk`. -/
theorem file_walk (board : Board) (y x1 x2 : Int) (hy : 0 ≤ y ∧ y < 8)
    (h1 : 0 ≤ x1 ∧ x1 < 8) (h2 : 0 ≤ x2 ∧ x2 < 8) (hne : x1 ≠ x2) :
    ∃ r, (do
        let step ← cdiv (x2 - x1) (cabs (x2 - x1))
        walkFile board y x2 step (x2 - x1).natAbs (x1 + step)) = .ok r ∧
      (r = true ↔ fileClear board y x1 x2) := by
  obtain ⟨r, hr, hiff⟩ := rank_walk (fun i j => board j i) y x1 x2 hy h1 h2 hne
  refine ⟨r, ?_, ?_⟩
  · simp only [walkFile_eq_walkRank]
    exact hr
  · rw [hiff]
    unfold rankClear fileClear
    simp only [occupant_transpose]

theorem walkDiag_spec (board : Board) (sx sy stepX stepY dx : Int)
    (hrange : ∀ k : Int, 0 < k → k < dx → onBoard (sx + k * stepX) (sy + k * stepY)) :
    ∀ (n : Nat) (i : Int), 0 < i → i + n = dx →
      ∃ r, walkDiag board sx sy stepX stepY dx (n + 1) i = .ok r ∧
        (r = true ↔ ∀ k : Int, i ≤ k → k < dx →
          board.occupant (sx + k * stepX) (sy + k * stepY) = none) := by
  intro n
  induction n with
  | zero =>
    intro i _ hi
    have : ¬ i < dx := by simp at hi; omega
    refine ⟨true, ?_, ?_⟩
    · simp [walkDiag, this]
    · simp only [true_iff]
      intro k h1 h2
      simp at hi
      omega
  | succ n ih =>
    intro i h0 hi
    have hlt : i < dx := by push_cast at hi; omega
    have hcell := cell_onBoard board _ _ (hrange i h0 hlt)
    rw [walkDiag, if_pos hlt, hcell]
    cases hocc : board.occupant (sx + i * stepX) (sy + i * stepY) with
    | some p =>
      refine ⟨false, by simp [bind, Except.bind, pure, Except.pure], ?_⟩
      simp only [Bool.false_eq_true, false_iff, not_forall]
      exact ⟨i, le_refl i, hlt, by simp [hocc]⟩
    | none =>
      obtain ⟨r, hr, hiff⟩ := ih (i + 1) (by omega) (by push_cast at hi; omega)
      refine ⟨r, by simpa [bind, Except.bind] using hr, ?_⟩
      rw [hiff]
      constructor
      · intro h k h1 h2
        by_cases hk : k = i
        · rw [hk]; exact hocc
        · exact h k (by omega) h2
      · intro h k h1 h2
        exact h k (by omega) h2

theorem cdiv_cabs_sign (d : Int) (h : d ≠ 0) : cdiv d (cabs d) = .ok (Int.sign d) := by
  rcases lt_or_gt_of_ne h with hlt | hgt
  · rw [cdiv_cabs_neg d hlt, Int.sign_eq_neg_one_of_neg hlt]
  · rw [cdiv_cabs_pos d hgt, Int.sign_eq_one_of_pos hgt]

/-- The diagonal walk of `Bishop::isValidMove` and `Queen::isValidMove` between two distinct
squares of one diagonal: no fault, and the result says whether the squares in between are
empty. -/
theorem diag_walk (board : Board) (sx sy ex ey : Int) (hs : onBoard sx sy) (he : onBoard ex ey)
    (hd : cabs (ex - sx) = cabs (ey - sy)) (hne : ex - sx ≠ 0) :
    ∃ r, (do
        let stepX ← cdiv (ex - sx) (cabs (ex - sx))
        let stepY ← cdiv (ey - sy) (cabs (ey - sy))
        walkDiag board sx sy stepX stepY (cabs (ex - sx)) (cabs (ex - sx)).toNat 1) = .ok r ∧
      (r = true ↔ diagClear board sx sy ex ey) := by
  unfold onBoard at hs he
  have hca : cabs (ex - sx) = |ex - sx| := cabs_eq_abs _
  have hcb : cabs (ey - sy) = |ey - sy| := cabs_eq_abs _
  have hpos : 0 < |ex - sx| := abs_pos.mpr hne
  have hney : ey - sy ≠ 0 := by
    intro h0
    rw [hca, hcb, h0] at hd
    simp at hd
    omega
  rw [cdiv_cabs_sign _ hne, cdiv_cabs_sign _ hney]
  have hrange : ∀ k : Int, 0 < k → k < cabs (ex - sx) →
      onBoard (sx + k * Int.sign (ex - sx)) (sy + k * Int.sign (ey - sy)) := by
    intro k hk0 hk
    rw [hca] at hk
    have hk2 : k < |ey - sy| := by rw [← hcb, ← hd, hca]; exact hk
    unfold onBoard
    rcases lt_or_gt_of_ne hne with h1 | h1 <;> rcases lt_or_gt_of_ne hney with h2 | h2
    · rw [Int.sign_eq_neg_one_of_neg h1, Int.sign_eq_neg_one_of_neg h2]
      rw [abs_of_neg h1] at hk; rw [abs_of_neg h2] at hk2; omega
    · rw [Int.sign_eq_neg_one_of_neg h1, Int.sign_eq_one_of_pos h2]
      rw [abs_of_neg h1] at hk; rw [abs_of_pos h2] at hk2; omega
    · rw [Int.sign_eq_one_of_pos h1, Int.sign_eq_neg_one_of_neg h2]
      rw [abs_of_pos h1] at hk; rw [abs_of_neg h2] at hk2; omega
    · rw [Int.sign_eq_one_of_pos h1, Int.sign_eq_one_of_pos h2]
      rw [abs_of_pos h1] at hk; rw [abs_of_pos h2] at hk2; omega
  obtain ⟨n, hn, hn2⟩ : ∃ n : Nat, (cabs (ex - sx)).toNat = n + 1 ∧ 1 + (n : Int) = cabs (ex - sx) := by
    rw [hca]
    exact ⟨(|ex - sx| - 1).toNat, by omega, by omega⟩
  obtain ⟨r, hr, hiff⟩ := walkDiag_spec board sx sy _ _ _ hrange n 1 (by omega) hn2
  refine ⟨r, ?_, ?_⟩
  · rw [hn]
    simpa [bind, Except.bind] using hr
  · rw [hiff, hca]
    unfold diagClear
    constructor
    · intro h k h1 h2; exact h k (by omega) h2
    · intro h k h1 h2; exact h k (by omega) h2

/-! ## Piece rules: supporting facts -/

/-- `Rook::isValidMove` between two distinct squares of the board ends without a fault and
returns true exactly under the rook rule. -/
theorem rook_distinct (board : Board) (sx sy ex ey : Int) (hs : onBoard sx sy)
    (he : onBoard ex ey) (hne : ¬ (sx = ex ∧ sy = ey)) :
    ∃ r, Rook.isValidMove sx sy ex ey board = .ok r ∧
      (r = true ↔ rookRule board sx sy ex ey) := by
  unfold onBoard at hs he
  unfold Rook.isValidMove rookRule
  by_cases h1 : sx ≠ ex ∧ sy ≠ ey
  · rw [if_pos h1]
    refine ⟨false, rfl, ?_⟩
    simp only [Bool.false_eq_true, false_iff, not_or, not_and]
    exact ⟨fun h => absurd h h1.1, fun h => absurd h h1.2⟩
  · rw [if_neg h1]
    by_cases h2 : sx = ex
    · rw [if_pos h2]
      have hy : sy ≠ ey := fun h => hne ⟨h2, h⟩
      obtain ⟨r, hr, hiff⟩ := rank_walk board sx sy ey ⟨hs.1, hs.2.1⟩
        ⟨hs.2.2.1, hs.2.2.2⟩ ⟨he.2.2.1, he.2.2.2⟩ hy
      refine ⟨r, hr, ?_⟩
      rw [hiff]
      constructor
      · intro h; exact Or.inl ⟨h2, h⟩
      · rintro (h | h)
        · exact h.2
        · exact absurd h.1 hy
    · rw [if_neg h2]
      have hy : sy = ey := by
        by_contra h; exact h1 ⟨h2, h⟩
      obtain ⟨r, hr, hiff⟩ := file_walk board sy sx ex ⟨hs.2.2.1, hs.2.2.2⟩
        ⟨hs.1, hs.2.1⟩ ⟨he.1, he.2.1⟩ h2
      refine ⟨r, hr, ?_⟩
      rw [hiff]
      constructor
      · intro h; exact Or.inr ⟨hy, h⟩
      · rintro (h | h)
        · exact absurd h.1 h2
        · exact h.2

/-- `Bishop::isValidMove` between two distinct squares of the board ends without a fault and
returns true exactly under the bishop rule. -/
theorem bishop_distinct (board : Board) (sx sy ex ey : Int) (hs : onBoard sx sy)
    (he : onBoard ex ey) (hne : ¬ (sx = ex ∧ sy = ey)) :
    ∃ r, Bishop.isValidMove sx sy ex ey board = .ok r ∧
      (r = true ↔ bishopRule board sx sy ex ey) := by
  unfold Bishop.isValidMove bishopRule
  simp only []
  by_cases h1 : cabs (ex - sx) ≠ cabs (ey - sy)
  · rw [if_pos h1]
    refine ⟨false, rfl, ?_⟩
    simp only [Bool.false_eq_true, false_iff, not_and]
    intro h
    rw [cabs_eq_abs, cabs_eq_abs] at h1
    exact absurd h h1
  · rw [if_neg h1]
    have hd : cabs (ex - sx) = cabs (ey - sy) := not_not.mp h1
    have hx : ex - sx ≠ 0 := by
      intro h0
      have h3 : cabs (ey - sy) = 0 := by rw [← hd, h0]; rfl
      rw [cabs_eq_abs] at h3
      have := abs_eq_zero.mp h3
      exact hne ⟨by omega, by omega⟩
    obtain ⟨r, hr, hiff⟩ := diag_walk board sx sy ex ey hs he hd hx
    refine ⟨r, ?_, ?_⟩
    · exact hr
    · rw [hiff]
      rw [cabs_eq_abs, cabs_eq_abs] at hd
      constructor
      · intro h; exact ⟨hd, abs_pos.mpr hx, h⟩
      · intro h; exact h.2.2

theorem rook_same_square (board : Board) (x y : Int) :
    Rook.isValidMove x y x y board = .error .divisionByZero := by
  simp [Rook.isValidMove, cabs, cdiv, bind, Except.bind]

theorem bishop_same_square (board : Board) (x y : Int) :
    Bishop.isValidMove x y x y board = .error .divisionByZero := by
  simp [Bishop.isValidMove, cabs, cdiv, bind, Except.bind]

theorem queen_same_square (board : Board) (x y : Int) :
    Queen.isValidMove x y x y board = .error .divisionByZero := by
  simp [Queen.isValidMove, cabs, cdiv, bind, Except.bind]


theorem ok_eq_true_iff (r : Bool) (e : Except Fault Bool) (h : e = .ok r) :
    e = .ok true ↔ r = true := by
  rw [h]
  constructor
  · intro h2; injection h2
  · intro h2; rw [h2]

/-- The value true comes out of `Queen::isValidMove` exactly when it comes out of
`Rook::isValidMove` or `Bishop::isValidMove`; where the three calls fault (origin =
destination) none of them yields it. -/
theorem queen_true_iff (board : Board) (sx sy ex ey : Int) :
    Queen.isValidMove sx sy ex ey board = .ok true ↔
      (Rook.isValidMove sx sy ex ey board = .ok true ∨
        Bishop.isValidMove sx sy ex ey board = .ok true) := by
  unfold Queen.isValidMove Rook.isValidMove Bishop.isValidMove
  simp only []
  by_cases hx : sx = ex <;> by_cases hy : sy = ey
  · subst hx; subst hy
    simp [cabs, cdiv, bind, Except.bind]
  · have hd : ¬ (cabs 0 = cabs (ey - sy)) := by
      rw [cabs_eq_abs, cabs_eq_abs]
      simp only [abs_zero]
      intro h
      have := abs_eq_zero.mp h.symm
      omega
    simp [hx, hy, hd, pure, Except.pure]
  · have hd : ¬ (cabs (ex - sx) = cabs 0) := by
      rw [cabs_eq_abs, cabs_eq_abs]
      simp only [abs_zero]
      intro h
      have := abs_eq_zero.mp h
      omega
    simp [hx, hy, hd, pure, Except.pure]
  · by_cases hd : cabs (ex - sx) = cabs (ey - sy)
    · simp [hx, hy, hd, pure, Except.pure]
    · simp [hx, hy, hd, pure, Except.pure]

theorem pawnForward_eq (w : Bool) (x : Int) :
    pawnForward w x = x + (if w = true then (-1 : Int) else 1) := by
  cases w <;> simp [pawnForward]
  omega

theorem pawn_result (board : Board) (w f : Bool) (sx sy ex ey : Int) (hs : onBoard sx sy)
    (he : onBoard ex ey) :
    ∃ r, Pawn.isValidMove w f sx sy ex ey board = .ok r ∧
      (r = true ↔ pawnAdvance board w sx sy ex ey ∨ pawnCapture board w sx sy ex ey ∨
        pawnDouble board w f sx sy ex ey) := by
  have hE := cell_onBoard board ex ey he
  have hM : ∀ d : Int, sx + 2 * d = ex → (d = 1 ∨ d = -1) →
      board.cell (sx + d) sy = .ok (board.occupant (sx + d) sy) := by
    intro d h1 h2
    apply cell_onBoard
    unfold onBoard at *
    omega
  unfold Pawn.isValidMove pawnAdvance pawnCapture pawnDouble
  simp only [pawnForward_eq, cabs_eq_abs]
  have hd : (if w = true then (-1 : Int) else 1) = 1 ∨ (if w = true then (-1 : Int) else 1) = -1 := by
    cases w <;> simp
  generalize (if w = true then (-1 : Int) else 1) = d at hd ⊢
  clear hs he
  have hab : |sy - ey| = 1 ↔ |ey - sy| = 1 := by rw [abs_sub_comm]
  obtain ⟨oE, hoE⟩ : ∃ o, board.occupant ex ey = o := ⟨_, rfl⟩
  by_cases hA : sx + d = ex
  · have hD : ¬ (sx + 2 * d = ex) := by omega
    have hD2 : ¬ (ex = sx + d + d) := by omega
    by_cases hB : sy = ey
    · have hC : ¬ (|sy - ey| = 1) := by rw [hB]; simp
      cases oE with
      | none =>
        refine ⟨true, ?_, ?_⟩
        · simp only [hA, hB, and_self, if_true, hE, hoE, bind, Except.bind, pure, Except.pure,
            Option.isNone_none]
        · simp only [true_iff]
          exact Or.inl ⟨hA.symm, hB.symm, hoE⟩
      | some q =>
        refine ⟨false, ?_, ?_⟩
        · rw [hB] at hC
          simp only [hA, hB, hC, hD, and_self, and_false, false_and, if_true, if_false, hE, hoE,
            bind, Except.bind, pure, Except.pure, Option.isNone_some, Bool.false_eq_true]
        · simp only [Bool.false_eq_true, false_iff, not_or, not_and]
          refine ⟨fun _ _ h => ?_, fun _ h => ?_, fun _ h => absurd h hD2⟩
          · rw [hoE] at h; cases h
          · exact absurd (hab.mpr h) hC
    · by_cases hC : |sy - ey| = 1
      · cases oE with
        | none =>
          refine ⟨false, ?_, ?_⟩
          · simp only [hA, hB, hC, hD, and_self, and_false, false_and, if_true, if_false, hE,
              hoE, bind, Except.bind, pure, Except.pure, Option.isSome_none,
              Bool.false_eq_true]
          · simp only [Bool.false_eq_true, false_iff, not_or, not_and]
            refine ⟨fun _ h => absurd h.symm hB, fun _ _ h => h hoE, fun _ h => absurd h hD2⟩
        | some q =>
          refine ⟨true, ?_, ?_⟩
          · simp only [hA, hB, hC, and_self, and_false, if_true, if_false, hE, hoE, bind,
              Except.bind, pure, Except.pure, Option.isSome_some, Bool.false_eq_true]
          · simp only [true_iff]
            exact Or.inr (Or.inl ⟨hA.symm, hab.mp hC, by rw [hoE]; simp⟩)
      · refine ⟨false, ?_, ?_⟩
        · simp only [hA, hB, hC, hD, and_self, and_false, false_and, if_true, if_false, bind,
            Except.bind, pure, Except.pure, Bool.false_eq_true]
        · simp only [Bool.false_eq_true, false_iff, not_or, not_and]
          refine ⟨fun _ h => absurd h.symm hB, fun _ h => absurd (hab.mpr h) hC,
            fun _ h => absurd h hD2⟩
  · have hA2 : ¬ (ex = sx + d) := fun h => hA h.symm
    by_cases hD : f = true ∧ sx + 2 * d = ex ∧ sy = ey
    · have hmid := hM d hD.2.1 hd
      have hex : ex = sx + d + d := by omega
      obtain ⟨oM, hoM⟩ : ∃ o, board.occupant (sx + d) sy = o := ⟨_, rfl⟩
      have hmid2 : board.cell (sx + d) ey = .ok oM := by rw [← hD.2.2, hmid, hoM]
      cases oE with
      | none =>
        cases oM with
        | none =>
          refine ⟨true, ?_, ?_⟩
          · simp only [hA, hD, and_self, false_and, if_true, if_false, bind,
              Except.bind, pure, Except.pure, Bool.false_eq_true]
            simp only [hE, hoE, hmid2, Option.isNone_none, if_true]
          · simp only [true_iff]
            exact Or.inr (Or.inr ⟨hD.1, hex, hD.2.2.symm, hoE, hoM⟩)
        | some q =>
          refine ⟨false, ?_, ?_⟩
          · simp only [hA, hD, and_self, false_and, if_true, if_false, bind,
              Except.bind, pure, Except.pure, Bool.false_eq_true]
            simp only [hE, hoE, hmid2, Option.isNone_none, Option.isNone_some, if_true,
              Bool.false_eq_true, if_false]
          · simp only [Bool.false_eq_true, false_iff, not_or, not_and]
            refine ⟨fun h => absurd h hA2, fun h => absurd h hA2, fun _ _ _ _ h => ?_⟩
            rw [hoM] at h; cases h
      | some q =>
        refine ⟨false, ?_, ?_⟩
        · simp only [hA, hD, and_self, false_and, if_true, if_false, bind,
            Except.bind, pure, Except.pure, Bool.false_eq_true]
          simp only [hE, hoE, Option.isNone_some, Bool.false_eq_true, if_false]
        · simp only [Bool.false_eq_true, false_iff, not_or, not_and]
          refine ⟨fun h => absurd h hA2, fun h => absurd h hA2, fun _ _ _ h => ?_⟩
          rw [hoE] at h; cases h
    · refine ⟨false, ?_, ?_⟩
      · simp only [hA, hD, false_and, if_false, bind, Except.bind, pure, Except.pure,
          Bool.false_eq_true]
      · simp only [Bool.false_eq_true, false_iff, not_or, not_and]
        refine ⟨fun h => absurd h hA2, fun h => absurd h hA2, fun h1 h2 h3 => ?_⟩
        exact absurd ⟨h1, by omega, h3.symm⟩ hD


/-- C7 (failing input): on the starting position the rook on (0,0) asked about the move to
its own square divides by zero, although origin and destination share a rank and a file and
no square lies between them, so that the rook rule of the specification holds. -/
theorem rook_own_square_faults :
    initializeBoard 0 0 = some (.rook false) ∧
      rookRule initializeBoard 0 0 0 0 ∧
      Rook.isValidMove 0 0 0 0 initializeBoard = .error .divisionByZero := by
  refine ⟨by decide, Or.inl ⟨rfl, ?_⟩, rook_same_square _ 0 0⟩
  intro y h1 h2
  simp at h1 h2
  omega

theorem pawn_cases_exclusive (board : Board) (w f : Bool) (sx sy ex ey : Int) :
    ¬ (pawnAdvance board w sx sy ex ey ∧ pawnCapture board w sx sy ex ey) ∧
      ¬ (pawnAdvance board w sx sy ex ey ∧ pawnDouble board w f sx sy ex ey) ∧
      ¬ (pawnCapture board w sx sy ex ey ∧ pawnDouble board w f sx sy ex ey) := by
  unfold pawnAdvance pawnCapture pawnDouble
  simp only [pawnForward_eq]
  have hd : (if w = true then (-1 : Int) else 1) ≠ 0 := by cases w <;> simp
  generalize (if w = true then (-1 : Int) else 1) = d at hd ⊢
  refine ⟨?_, ?_, ?_⟩
  · rintro ⟨⟨_, h1, _⟩, ⟨_, h2, _⟩⟩
    rw [h1] at h2
    simp at h2
  · rintro ⟨⟨h1, _, _⟩, ⟨_, h2, _⟩⟩
    omega
  · rintro ⟨⟨h1, _, _⟩, ⟨_, h2, _⟩⟩
    omega

/-- C10: for in-bounds origin and destination, `Pawn::isValidMove` returns true if and only
if exactly one of (a) one square straight forward into an empty square, (b) one square
forward with the file differing by exactly 1 into an occupied square, (c) never moved, two
squares straight forward into an empty square over an empty intermediate square, holds. -/
theorem pawn_iff (board : Board) (w f : Bool) (sx sy ex ey : Int) (hs : onBoard sx sy)
    (he : onBoard ex ey) :
    Pawn.isValidMove w f sx sy ex ey board = .ok true ↔
      exactlyOne (pawnAdvance board w sx sy ex ey) (pawnCapture board w sx sy ex ey)
        (pawnDouble board w f sx sy ex ey) := by
  obtain ⟨r, hr, hiff⟩ := pawn_result board w f sx sy ex ey hs he
  obtain ⟨h1, h2, h3⟩ := pawn_cases_exclusive board w f sx sy ex ey
  rw [ok_eq_true_iff r _ hr, hiff]
  unfold exactlyOne
  tauto

theorem pawn_iff_witness :
    onBoard 6 4 ∧ onBoard 4 4 ∧
      (Pawn.isValidMove true true 6 4 4 4 initializeBoard = .ok true ↔
        exactlyOne (pawnAdvance initializeBoard true 6 4 4 4)
          (pawnCapture initializeBoard true 6 4 4 4)
          (pawnDouble initializeBoard true true 6 4 4 4)) :=
  ⟨by decide, by decide, pawn_iff initializeBoard true true 6 4 4 4 (by decide) (by decide)⟩

theorem queen_total (board : Board) (sx sy ex ey : Int) (hs : onBoard sx sy)
    (he : onBoard ex ey) (hne : ¬ (sx = ex ∧ sy = ey)) :
    ∃ r, Queen.isValidMove sx sy ex ey board = .ok r := by
  unfold Queen.isValidMove
  simp only []
  by_cases h1 : cabs (ex - sx) ≠ cabs (ey - sy) ∧ sx ≠ ex ∧ sy ≠ ey
  · rw [if_pos h1]; exact ⟨false, rfl⟩
  · rw [if_neg h1]
    unfold onBoard at hs he
    by_cases h2 : sx = ex
    · rw [if_pos h2]
      have hy : sy ≠ ey := fun h => hne ⟨h2, h⟩
      obtain ⟨r, hr, _⟩ := rank_walk board sx sy ey ⟨hs.1, hs.2.1⟩
        ⟨hs.2.2.1, hs.2.2.2⟩ ⟨he.2.2.1, he.2.2.2⟩ hy
      exact ⟨r, hr⟩
    · rw [if_neg h2]
      by_cases h3 : sy = ey
      · rw [if_pos h3]
        obtain ⟨r, hr, _⟩ := file_walk board sy sx ex ⟨hs.2.2.1, hs.2.2.2⟩
          ⟨hs.1, hs.2.1⟩ ⟨he.1, he.2.1⟩ h2
        exact ⟨r, hr⟩
      · rw [if_neg h3]
        have hd : cabs (ex - sx) = cabs (ey - sy) := by
          by_contra h; exact h1 ⟨h, h2, h3⟩
        obtain ⟨r, hr, _⟩ := diag_walk board sx sy ex ey
          (by unfold onBoard; exact hs) (by unfold onBoard; exact he) hd (by omega)
        exact ⟨r, hr⟩

/-- Between two distinct squares of the board every piece rule ends without a fault. -/
theorem isValidMove_total (p : Piece) (board : Board) (sx sy ex ey : Int) (hs : onBoard sx sy)
    (he : onBoard ex ey) (hne : ¬ (sx = ex ∧ sy = ey)) :
    ∃ r, p.isValidMove sx sy ex ey board = .ok r := by
  cases p with
  | rook w =>
    obtain ⟨r, hr, _⟩ := rook_distinct board sx sy ex ey hs he hne
    exact ⟨r, hr⟩
  | knight w => exact ⟨_, rfl⟩
  | bishop w =>
    obtain ⟨r, hr, _⟩ := bishop_distinct board sx sy ex ey hs he hne
    exact ⟨r, hr⟩
  | queen w => exact queen_total board sx sy ex ey hs he hne
  | king w => exact ⟨_, rfl⟩
  | pawn w f =>
    obtain ⟨r, hr, _⟩ := pawn_result board w f sx sy ex ey hs he
    exact ⟨r, hr⟩

/-! ## `movePiece` -/

theorem isWithinBounds_iff (sx sy ex ey : Int) :
    isWithinBounds sx sy ex ey = true ↔ onBoard sx sy ∧ onBoard ex ey := by
  unfold isWithinBounds onBoard
  simp only [Bool.and_eq_true, decide_eq_true_eq, ge_iff_le]
  tauto

theorem occupant_set (board : Board) (x y : Int) (v : Option Piece) (x2 y2 : Int) :
    (board.set x y v).occupant x2 y2 =
      if x2 = x ∧ y2 = y ∧ onBoard x2 y2 then v else board.occupant x2 y2 := by
  unfold Board.occupant Board.set onBoard
  by_cases hb : 0 ≤ x2 ∧ x2 < 8 ∧ 0 ≤ y2 ∧ y2 < 8
  · have h1 : ((Fin.ofNat x2.toNat : Fin 8) : Int) = x2 := by
      simp [Fin.ofNat]; omega
    have h2 : ((Fin.ofNat y2.toNat : Fin 8) : Int) = y2 := by
      simp [Fin.ofNat]; omega
    simp only [hb, and_self, if_true, h1, h2, and_true]
  · simp only [hb, if_false, and_false]

/-- Colour test of `movePiece` on the origin: it rejects exactly the pieces of the other
colour. -/
theorem wrong_owner_iff (p : Piece) (w : Bool) :
    ((w && p.getSymbol.isLower) || (!w && p.getSymbol.isUpper)) = true ↔ p.isWhite ≠ w := by
  rw [getSymbol_isLower, getSymbol_isUpper]
  cases w <;> cases p.isWhite <;> simp

/-- Colour test of `movePiece` on the destination: it rejects exactly the pieces of the
mover colour. -/
theorem own_target_iff (q : Piece) (w : Bool) :
    ((w && q.getSymbol.isUpper) || (!w && q.getSymbol.isLower)) = true ↔ q.isWhite = w := by
  rw [getSymbol_isLower, getSymbol_isUpper]
  cases w <;> cases q.isWhite <;> simp

/-- The rejecting paths of `movePiece` (lines 170-176 and 187). -/
theorem movePiece_rejects_of (board : Board) (sx sy ex ey : Int) (w : Bool)
    (h : ¬ (onBoard sx sy ∧ onBoard ex ey) ∨
      board.occupant sx sy = none ∨
      (∃ p, board.occupant sx sy = some p ∧ p.isWhite ≠ w) ∨
      (∃ q, board.occupant ex ey = some q ∧ q.isWhite = w) ∨
      (∃ p, board.occupant sx sy = some p ∧ p.isValidMove sx sy ex ey board = .ok false)) :
    movePiece board sx sy ex ey w = .ok (false, board) := by
  unfold movePiece
  by_cases hb : isWithinBounds sx sy ex ey = true
  · have hb2 := (isWithinBounds_iff sx sy ex ey).mp hb
    rw [hb, cell_onBoard board sx sy hb2.1, cell_onBoard board ex ey hb2.2]
    simp only [Bool.not_true, Bool.false_eq_true, if_false, bind, Except.bind]
    rcases hsrc : board.occupant sx sy with _ | p
    · rfl
    · simp only []
      by_cases hown : p.isWhite ≠ w
      · rw [if_pos ((wrong_owner_iff p w).mpr hown)]; rfl
      · rw [if_neg (fun hc => hown ((wrong_owner_iff p w).mp hc))]
        rcases hdst : board.occupant ex ey with _ | q
        · simp only [Bool.false_eq_true, if_false]
          rcases h with h | h | ⟨p2, h, h2⟩ | ⟨q2, h, h2⟩ | ⟨p2, h, h2⟩
          · exact absurd hb2 h
          · rw [hsrc] at h; cases h
          · rw [hsrc] at h; cases h; exact absurd h2 hown
          · rw [hdst] at h; cases h
          · rw [hsrc] at h; cases h
            rw [h2]; rfl
        · simp only []
          by_cases htgt : q.isWhite = w
          · rw [if_pos ((own_target_iff q w).mpr htgt)]; rfl
          · rw [if_neg (fun hc => htgt ((own_target_iff q w).mp hc))]
            rcases h with h | h | ⟨p2, h, h2⟩ | ⟨q2, h, h2⟩ | ⟨p2, h, h2⟩
            · exact absurd hb2 h
            · rw [hsrc] at h; cases h
            · rw [hsrc] at h; cases h; exact absurd h2 hown
            · rw [hdst] at h; cases h; exact absurd h2 htgt
            · rw [hsrc] at h; cases h
              rw [h2]; rfl
  · have hb3 : isWithinBounds sx sy ex ey = false := by simpa using hb
    rw [hb3]; rfl

/-- C1: `Board::movePiece` returns false and leaves the board unchanged whenever a coordinate
is outside `[0,8)`, the origin is empty, the origin occupant is not of the mover colour, the
destination holds a piece of the mover colour, or the origin occupant's `isValidMove` rejects
the move. -/
theorem movePiece_rejects (board : Board) (sx sy ex ey : Int) (w : Bool)
    (h : ¬ (onBoard sx sy ∧ onBoard ex ey) ∨
      board.occupant sx sy = none ∨
      (∃ p, board.occupant sx sy = some p ∧ p.isWhite ≠ w) ∨
      (∃ q, board.occupant ex ey = some q ∧ q.isWhite = w) ∨
      (∃ p, board.occupant sx sy = some p ∧ p.isValidMove sx sy ex ey board = .ok false)) :
    movePiece board sx sy ex ey w = .ok (false, board) :=
  movePiece_rejects_of board sx sy ex ey w h

theorem movePiece_rejects_witness :
    (∃ p, initializeBoard.occupant 7 0 = some p ∧
        p.isValidMove 7 0 5 1 initializeBoard = .ok false) ∧
      movePiece initializeBoard 7 0 5 1 true = .ok (false, initializeBoard) :=
  ⟨⟨.rook true, by decide, by decide⟩,
    movePiece_rejects initializeBoard 7 0 5 1 true
      (Or.inr (Or.inr (Or.inr (Or.inr ⟨.rook true, by decide, by decide⟩))))⟩


/-- The accepting path of `movePiece` (lines 178-184). -/
theorem movePiece_accepts (board : Board) (sx sy ex ey : Int) (w : Bool) (p : Piece)
    (hs : onBoard sx sy) (he : onBoard ex ey) (hne : ¬ (ex = sx ∧ ey = sy))
    (hsrc : board.occupant sx sy = some p) (hpw : p.isWhite = w)
    (hq : ∀ q, board.occupant ex ey = some q → q.isWhite ≠ w)
    (hv : p.isValidMove sx sy ex ey board = .ok true) :
    movePiece board sx sy ex ey w =
      .ok (true, (((board.set sx sy (some p.move)).set ex ey (some p.move)).set
        sx sy none).set sx sy none) := by
  have hb : isWithinBounds sx sy ex ey = true := (isWithinBounds_iff sx sy ex ey).mpr ⟨hs, he⟩
  have hc : (board.set sx sy (some p.move)).cell sx sy = .ok (some p.move) := by
    rw [cell_onBoard _ _ _ hs, occupant_set]
    simp [hs]
  have hown : ¬ (((w && p.getSymbol.isLower) || (!w && p.getSymbol.isUpper)) = true) := by
    rw [wrong_owner_iff]; exact not_not.mpr hpw
  unfold movePiece
  rw [hb, cell_onBoard board sx sy hs, cell_onBoard board ex ey he, hsrc]
  simp only [Bool.not_true, Bool.false_eq_true, if_false, bind, Except.bind, if_neg hown, hv,
    if_true, Board.moveAssign, if_neg hne, hc, pure, Except.pure]
  rcases hdst : board.occupant ex ey with _ | q
  · simp only [Bool.false_eq_true, if_false]
  · have htgt : ¬ (((w && q.getSymbol.isUpper) || (!w && q.getSymbol.isLower)) = true) := by
      rw [own_target_iff]; exact hq q hdst
    simp only [if_neg htgt]

/-- What a successful `movePiece` went through: both squares on the board and distinct, a
piece of the mover colour on the origin, no piece of the mover colour on the destination, the
piece rule accepting, and the grid written by lines 179-183. -/
theorem movePiece_true_inv (board board' : Board) (sx sy ex ey : Int) (w : Bool)
    (h : movePiece board sx sy ex ey w = .ok (true, board')) :
    onBoard sx sy ∧ onBoard ex ey ∧ ¬ (ex = sx ∧ ey = sy) ∧
      ∃ p, board.occupant sx sy = some p ∧ p.isWhite = w ∧
        (∀ q, board.occupant ex ey = some q → q.isWhite ≠ w) ∧
        p.isValidMove sx sy ex ey board = .ok true ∧
        board' = (((board.set sx sy (some p.move)).set ex ey (some p.move)).set sx sy none).set
          sx sy none := by
  have contra : ∀ {P : Prop}, movePiece board sx sy ex ey w = .ok (false, board) → P := by
    intro P h2
    rw [h2] at h
    injection h with h3
    injection h3 with h4 _
    cases h4
  have hb : onBoard sx sy ∧ onBoard ex ey := by
    by_contra hb
    exact contra (movePiece_rejects_of board sx sy ex ey w (Or.inl hb))
  rcases hsrc : board.occupant sx sy with _ | p
  · exact contra (movePiece_rejects_of board sx sy ex ey w (Or.inr (Or.inl hsrc)))
  have hpw : p.isWhite = w := by
    by_contra hpw
    exact contra (movePiece_rejects_of board sx sy ex ey w (Or.inr (Or.inr (Or.inl ⟨p, hsrc, hpw⟩))))
  have hq : ∀ q, board.occupant ex ey = some q → q.isWhite ≠ w := by
    intro q hq hqw
    exact contra (movePiece_rejects_of board sx sy ex ey w
      (Or.inr (Or.inr (Or.inr (Or.inl ⟨q, hq, hqw⟩)))))
  have hne : ¬ (ex = sx ∧ ey = sy) := by
    rintro ⟨h1, h2⟩
    rw [← h1, ← h2] at hsrc
    exact hq p hsrc hpw
  have hne2 : ¬ (sx = ex ∧ sy = ey) := fun h => hne ⟨h.1.symm, h.2.symm⟩
  obtain ⟨r, hr⟩ := isValidMove_total p board sx sy ex ey hb.1 hb.2 hne2
  cases r with
  | false =>
    exact contra (movePiece_rejects_of board sx sy ex ey w
      (Or.inr (Or.inr (Or.inr (Or.inr ⟨p, hsrc, hr⟩)))))
  | true =>
    refine ⟨hb.1, hb.2, hne, p, rfl, hpw, hq, hr, ?_⟩
    rw [movePiece_accepts board sx sy ex ey w p hb.1 hb.2 hne hsrc hpw hq hr] at h
    injection h with h3
    injection h3 with _ h4
    exact h4.symm

/-! ## `isCheck` -/

theorem mem_idx8 (i : Fin 8) : i ∈ idx8 := by
  fin_cases i <;> simp [idx8]

theorem findKingInRow_none (board : Board) (w : Bool) (row : Fin 8)
    (h : ∀ col, board row col ≠ some (.king w)) :
    ∀ cols, findKingInRow board (if w then 'K' else 'k') row cols = none := by
  intro cols
  induction cols with
  | nil => rfl
  | cons col cols ih =>
    unfold findKingInRow
    rcases hc : board row col with _ | p
    · exact ih
    · have hp : ¬ (p.getSymbol = if w then 'K' else 'k') := by
        rw [getSymbol_eq_king]
        intro hpk
        exact h col (by rw [hc, hpk])
      simp only [if_neg hp]
      exact ih

theorem findKingInRow_some (board : Board) (w : Bool) (kx ky : Fin 8)
    (hk : onlyKingAt board w kx ky) :
    ∀ cols, ky ∈ cols → findKingInRow board (if w then 'K' else 'k') kx cols = some ky := by
  intro cols
  induction cols with
  | nil => intro h; cases h
  | cons col cols ih =>
    intro hmem
    unfold findKingInRow
    rcases hc : board kx col with _ | p
    · have hne : col ≠ ky := by
        intro h; rw [h, hk.1] at hc; cases hc
      rcases List.mem_cons.mp hmem with h | h
      · exact absurd h.symm hne
      · exact ih h
    · by_cases hp : p.getSymbol = if w then 'K' else 'k'
      · simp only [if_pos hp]
        have hpk := (getSymbol_eq_king p w).mp hp
        have := (hk.2 kx col (by rw [hc, hpk])).2
        rw [this]
      · simp only [if_neg hp]
        have hne : col ≠ ky := by
          intro h
          rw [h, hk.1] at hc
          injection hc with hc
          exact hp ((getSymbol_eq_king p w).mpr hc.symm)
        rcases List.mem_cons.mp hmem with h | h
        · exact absurd h.symm hne
        · exact ih h

theorem findKing_found (board : Board) (w : Bool) (kx ky : Fin 8)
    (hk : onlyKingAt board w kx ky) :
    ∀ rows king, (kx ∈ rows ∨ king = some ((kx : Int), (ky : Int))) →
      findKing board (if w then 'K' else 'k') rows king = some ((kx : Int), (ky : Int)) := by
  intro rows
  induction rows with
  | nil =>
    intro king h
    rcases h with h | h
    · cases h
    · exact h
  | cons row rows ih =>
    intro king h
    unfold findKing
    by_cases hr : row = kx
    · rw [hr, findKingInRow_some board w kx ky hk idx8 (mem_idx8 ky)]
      exact ih _ (Or.inr rfl)
    · rw [findKingInRow_none board w row (fun col hc => hr (hk.2 row col hc).1) idx8]
      apply ih
      rcases h with h | h
      · rcases List.mem_cons.mp h with h2 | h2
        · exact absurd h2.symm hr
        · exact Or.inl h2
      · exact Or.inr h

theorem attackInRow_spec (board : Board) (w : Bool) (kx ky row : Fin 8)
    (hk : board kx ky = some (.king w)) :
    ∀ cols, ∃ r, attackInRow board w (some ((kx : Int), (ky : Int))) row cols = .ok r ∧
      (r = true ↔ ∃ col ∈ cols, acceptsMove board (!w) row col kx ky) := by
  intro cols
  induction cols with
  | nil => exact ⟨false, rfl, by simp⟩
  | cons col cols ih =>
    obtain ⟨r, hr, hiff⟩ := ih
    unfold attackInRow
    rcases hc : board row col with _ | p
    · refine ⟨r, by simpa [bind, Except.bind, pure, Except.pure] using hr, ?_⟩
      rw [hiff]
      simp only [List.mem_cons, exists_eq_or_imp]
      have : ¬ acceptsMove board (!w) row col kx ky := by
        rintro ⟨p, hp, _⟩
        rw [hc] at hp; cases hp
      tauto
    · by_cases hopp : p.isWhite ≠ w
      · have hne : ¬ ((row : Int) = kx ∧ (col : Int) = ky) := by
          rintro ⟨h1, h2⟩
          have h1 : row = kx := Fin.ext (by omega)
          have h2 : col = ky := Fin.ext (by omega)
          rw [h1, h2, hk] at hc
          injection hc with hc
          rw [← hc] at hopp
          exact hopp rfl
        obtain ⟨v, hv⟩ := isValidMove_total p board row col kx ky (onBoard_fin row col)
          (onBoard_fin kx ky) hne
        have hcond := (wrong_owner_iff p w).mpr hopp
        have hpw : p.isWhite = !w := by
          cases hw : w <;> cases hp : p.isWhite <;> simp_all
        cases v with
        | true =>
          refine ⟨true, ?_, ?_⟩
          · simp only [hcond, if_true, hv, bind, Except.bind, pure, Except.pure]
          · simp only [true_iff]
            exact ⟨col, List.mem_cons_self _ _, p, hc, hpw, hv⟩
        | false =>
          refine ⟨r, ?_, ?_⟩
          · simp only [hcond, if_true, hv, bind, Except.bind, pure, Except.pure,
              Bool.false_eq_true, if_false]
            exact hr
          · rw [hiff]
            simp only [List.mem_cons, exists_eq_or_imp]
            have : ¬ acceptsMove board (!w) row col kx ky := by
              rintro ⟨p2, hp2, _, hv2⟩
              rw [hc] at hp2
              injection hp2 with hp2
              rw [← hp2, hv] at hv2
              cases hv2
            tauto
      · have hcond : ¬ (((w && p.getSymbol.isLower) || (!w && p.getSymbol.isUpper)) = true) :=
          fun h => hopp ((wrong_owner_iff p w).mp h)
        refine ⟨r, ?_, ?_⟩
        · simp only [hcond, if_false, bind, Except.bind, pure, Except.pure, Bool.false_eq_true]
          exact hr
        · rw [hiff]
          simp only [List.mem_cons, exists_eq_or_imp]
          have : ¬ acceptsMove board (!w) row col kx ky := by
            rintro ⟨p2, hp2, hw2, _⟩
            rw [hc] at hp2
            injection hp2 with hp2
            rw [← hp2] at hw2
            apply hopp
            intro hpw
            rw [hpw] at hw2
            cases w <;> simp at hw2
          tauto


theorem attackScan_spec (board : Board) (w : Bool) (kx ky : Fin 8)
    (hk : board kx ky = some (.king w)) :
    ∀ rows, ∃ r, attackScan board w (some ((kx : Int), (ky : Int))) rows = .ok r ∧
      (r = true ↔ ∃ row ∈ rows, ∃ col, acceptsMove board (!w) row col kx ky) := by
  intro rows
  induction rows with
  | nil => exact ⟨false, rfl, by simp⟩
  | cons row rows ih =>
    obtain ⟨r, hr, hiff⟩ := ih
    obtain ⟨v, hv, hviff⟩ := attackInRow_spec board w kx ky row hk idx8
    unfold attackScan
    cases v with
    | true =>
      refine ⟨true, ?_, ?_⟩
      · simp only [hv, bind, Except.bind, pure, Except.pure, if_true]
      · simp only [true_iff]
        obtain ⟨col, _, hcol⟩ := hviff.mp rfl
        exact ⟨row, List.mem_cons_self _ _, col, hcol⟩
    | false =>
      refine ⟨r, ?_, ?_⟩
      · simp only [hv, bind, Except.bind, pure, Except.pure, Bool.false_eq_true, if_false]
        exact hr
      · rw [hiff]
        simp only [List.mem_cons, exists_eq_or_imp]
        have : ¬ ∃ col, acceptsMove board (!w) row col kx ky := by
          rintro ⟨col, hcol⟩
          have := hviff.mpr ⟨col, mem_idx8 col, hcol⟩
          cases this
        tauto

/-- On a board with exactly one king of the colour, `isCheck` ends without a fault and
reports whether some opposing piece's rule accepts the move onto the king's square. -/
theorem isCheck_result (board : Board) (w : Bool) (kx ky : Fin 8)
    (hk : onlyKingAt board w kx ky) :
    ∃ r, isCheck board w = .ok r ∧
      (r = true ↔ ∃ i j, acceptsMove board (!w) i j kx ky) := by
  obtain ⟨r, hr, hiff⟩ := attackScan_spec board w kx ky hk.1 idx8
  refine ⟨r, ?_, ?_⟩
  · unfold isCheck
    simp only []
    rw [findKing_found board w kx ky hk idx8 none (Or.inl (mem_idx8 kx))]
    exact hr
  · rw [hiff]
    constructor
    · rintro ⟨i, _, j, h⟩; exact ⟨i, j, h⟩
    · rintro ⟨i, j, h⟩; exact ⟨i, mem_idx8 i, j, h⟩

/-- C5: on a board with exactly one king of the colour, `isCheck` returns true if and only if
some square holds a piece of the opposite colour whose `isValidMove` accepts the move from
that square to the king's square. -/
theorem isCheck_iff (board : Board) (w : Bool) (kx ky : Fin 8)
    (hk : onlyKingAt board w kx ky) :
    isCheck board w = .ok true ↔
      ∃ i j : Fin 8, ∃ p, board i j = some p ∧ p.isWhite = (!w) ∧
        p.isValidMove i j kx ky board = .ok true := by
  obtain ⟨r, hr, hiff⟩ := isCheck_result board w kx ky hk
  rw [ok_eq_true_iff r _ hr, hiff]
  rfl

theorem cornerMate_onlyKing : onlyKingAt cornerMate true 0 0 := by
  refine ⟨by decide, ?_⟩
  decide

theorem isCheck_iff_witness :
    onlyKingAt cornerMate true 0 0 ∧
      (isCheck cornerMate true = .ok true ↔
        ∃ i j : Fin 8, ∃ p, cornerMate i j = some p ∧ p.isWhite = (!true) ∧
          p.isValidMove i j (0 : Fin 8) (0 : Fin 8) cornerMate = .ok true) :=
  ⟨cornerMate_onlyKing, isCheck_iff cornerMate true 0 0 cornerMate_onlyKing⟩

/-! ## `isCheckmate` -/

theorem moveAssign_fin (board : Board) (a b c d : Fin 8) :
    board.moveAssign a b c d =
      .ok (if (a : Int) = c ∧ (b : Int) = d then board
        else (board.set a b (board c d)).set c d none) := by
  unfold Board.moveAssign
  by_cases h : (a : Int) = c ∧ (b : Int) = d
  · simp only [if_pos h, cell_fin, bind, Except.bind, pure, Except.pure]
  · simp only [if_neg h, cell_fin, bind, Except.bind, pure, Except.pure]

theorem fin_pair_iff (i j a b : Fin 8) :
    ((i : Int) = (a : Int) ∧ (j : Int) = (b : Int)) ↔ (i = a ∧ j = b) := by
  constructor
  · rintro ⟨h1, h2⟩; exact ⟨Fin.ext (by omega), Fin.ext (by omega)⟩
  · rintro ⟨h1, h2⟩; rw [h1, h2]; exact ⟨rfl, rfl⟩

theorem set_fin (board : Board) (a b : Fin 8) (v : Option Piece) (i j : Fin 8) :
    (board.set a b v) i j = if i = a ∧ j = b then v else board i j := by
  unfold Board.set
  by_cases h : i = a ∧ j = b
  · rw [if_pos h, if_pos ((fin_pair_iff i j a b).mpr h)]
  · rw [if_neg h, if_neg (fun hc => h ((fin_pair_iff i j a b).mp hc))]

/-- Lines 233-234 (and 238-239) undo lines 228-230. -/
theorem restore_hypothetical (board : Board) (sx sy ex ey : Fin 8) :
    ((if (sx : Int) = ex ∧ (sy : Int) = ey then hypothetical board sx sy ex ey
      else ((hypothetical board sx sy ex ey).set sx sy
        ((hypothetical board sx sy ex ey) ex ey)).set ex ey none).set ex ey (board ex ey)) =
      board := by
  funext i j
  unfold hypothetical
  by_cases h : sx = ex ∧ sy = ey
  · have h1 : (sx : Int) = ex ∧ (sy : Int) = ey := (fin_pair_iff _ _ _ _).mpr h
    have h2 : (ex : Int) = sx ∧ (ey : Int) = sy := ⟨h1.1.symm, h1.2.symm⟩
    rw [if_pos h1, if_pos h2]
    obtain ⟨hx, hy⟩ := h
    subst hx; subst hy
    simp only [set_fin]
    by_cases hij : i = sx ∧ j = sy
    · rw [if_pos hij, hij.1, hij.2]
    · simp only [if_neg hij]
  · have h1 : ¬ ((sx : Int) = ex ∧ (sy : Int) = ey) := fun hc => h ((fin_pair_iff _ _ _ _).mp hc)
    have h2 : ¬ ((ex : Int) = sx ∧ (ey : Int) = sy) := fun hc => h1 ⟨hc.1.symm, hc.2.symm⟩
    have h3 : ¬ (ex = sx ∧ ey = sy) := fun hc => h ⟨hc.1.symm, hc.2.symm⟩
    rw [if_neg h1, if_neg h2]
    simp only [set_fin]
    by_cases hie : i = ex ∧ j = ey
    · rw [if_pos hie, hie.1, hie.2]
    · by_cases his : i = sx ∧ j = sy
      · simp only [if_neg hie, if_pos his, and_self, if_true, if_neg h3, if_neg h]
        rw [his.1, his.2]
      · simp only [if_neg hie, if_neg his]

/-- The body of the innermost loop of `isCheckmate`, in closed form. -/
theorem tryMove_eq (w : Bool) (sx sy ex ey : Fin 8) (board : Board) :
    tryMove w sx sy ex ey board =
      match board sx sy with
      | none => .error .nullDereference
      | some p =>
        match p.isValidMove sx sy ex ey board with
        | .error e => .error e
        | .ok false => .ok (none, board)
        | .ok true =>
          match isCheck (hypothetical board sx sy ex ey) w with
          | .error e => .error e
          | .ok false => .ok (some false, board)
          | .ok true => .ok (none, board) := by
  unfold tryMove
  rcases hb : board sx sy with _ | p
  · rfl
  · simp only []
    rcases hv : p.isValidMove sx sy ex ey board with e | v
    · rfl
    · cases v with
      | false => rfl
      | true =>
        simp only [bind, Except.bind, cell_fin, moveAssign_fin, if_true]
        have hh : (if (ex : Int) = sx ∧ (ey : Int) = sy then board.set ex ey none
            else ((board.set ex ey none).set ex ey ((board.set ex ey none) sx sy)).set
              sx sy none).set sx sy none = hypothetical board sx sy ex ey := rfl
        rw [hh]
        rcases hc : isCheck (hypothetical board sx sy ex ey) w with e | c
        · rfl
        · cases c with
          | false =>
            simp only [Bool.not_false, if_true, pure, Except.pure]
            rw [restore_hypothetical]
          | true =>
            simp only [Bool.not_true, Bool.false_eq_true, if_false, pure, Except.pure]
            rw [restore_hypothetical]


/-- One pass through the body of the innermost loop either executes `return false` or goes
on; in both cases the grid is as before. -/
theorem tryMove_ok (w : Bool) (sx sy ex ey : Fin 8) (board board' : Board) (r : Option Bool)
    (h : tryMove w sx sy ex ey board = .ok (r, board')) :
    board' = board ∧ (r = none ∨ r = some false) := by
  rw [tryMove_eq] at h
  rcases hb : board sx sy with _ | p
  · rw [hb] at h; cases h
  · rw [hb] at h
    simp only [] at h
    rcases hv : p.isValidMove sx sy ex ey board with e | v
    · rw [hv] at h; cases h
    · rw [hv] at h
      cases v with
      | false =>
        simp only [] at h
        injection h with h; injection h with h1 h2
        exact ⟨h2.symm, Or.inl h1.symm⟩
      | true =>
        simp only [] at h
        rcases hc : isCheck (hypothetical board sx sy ex ey) w with e | c
        · rw [hc] at h; cases h
        · rw [hc] at h
          cases c with
          | false =>
            simp only [] at h
            injection h with h; injection h with h1 h2
            exact ⟨h2.symm, Or.inr h1.symm⟩
          | true =>
            simp only [] at h
            injection h with h; injection h with h1 h2
            exact ⟨h2.symm, Or.inl h1.symm⟩

theorem endYLoop_ok (w : Bool) (sx sy ex : Fin 8) (board : Board) :
    ∀ (ys : List (Fin 8)) (r : Option Bool) (board' : Board),
      endYLoop w sx sy ex ys board = .ok (r, board') →
      board' = board ∧
        ((r = none ∧ ∀ y ∈ ys, tryMove w sx sy ex y board = .ok (none, board)) ∨
          (r = some false ∧ ∃ y ∈ ys, tryMove w sx sy ex y board = .ok (some false, board))) := by
  intro ys
  induction ys with
  | nil =>
    intro r board' h
    simp only [endYLoop, pure, Except.pure] at h
    injection h with h; injection h with h1 h2
    exact ⟨h2.symm, Or.inl ⟨h1.symm, by simp⟩⟩
  | cons y ys ih =>
    intro r board' h
    unfold endYLoop at h
    rcases ht : tryMove w sx sy ex y board with e | ⟨r1, b1⟩
    · rw [ht] at h; cases h
    · rw [ht] at h
      obtain ⟨hb1, hr1⟩ := tryMove_ok w sx sy ex y board b1 r1 ht
      subst hb1
      rcases hr1 with hr1 | hr1
      · subst hr1
        simp only [bind, Except.bind] at h
        obtain ⟨hb, hcase⟩ := ih r board' h
        refine ⟨hb, ?_⟩
        rcases hcase with ⟨h1, h2⟩ | ⟨h1, y2, hy2, h2⟩
        · refine Or.inl ⟨h1, ?_⟩
          intro y3 hy3
          rcases List.mem_cons.mp hy3 with h3 | h3
          · rw [h3]; exact ht
          · exact h2 y3 h3
        · exact Or.inr ⟨h1, y2, List.mem_cons_of_mem _ hy2, h2⟩
      · subst hr1
        simp only [bind, Except.bind, pure, Except.pure] at h
        injection h with h; injection h with h1 h2
        exact ⟨h2.symm, Or.inr ⟨h1.symm, y, List.mem_cons_self _ _, ht⟩⟩

theorem endXLoop_ok (w : Bool) (sx sy : Fin 8) (board : Board) :
    ∀ (xs : List (Fin 8)) (r : Option Bool) (board' : Board),
      endXLoop w sx sy xs board = .ok (r, board') →
      board' = board ∧
        ((r = none ∧ ∀ x ∈ xs, ∀ y, tryMove w sx sy x y board = .ok (none, board)) ∨
          (r = some false ∧
            ∃ x ∈ xs, ∃ y, tryMove w sx sy x y board = .ok (some false, board))) := by
  intro xs
  induction xs with
  | nil =>
    intro r board' h
    simp only [endXLoop, pure, Except.pure] at h
    injection h with h; injection h with h1 h2
    exact ⟨h2.symm, Or.inl ⟨h1.symm, by simp⟩⟩
  | cons x xs ih =>
    intro r board' h
    unfold endXLoop at h
    rcases ht : endYLoop w sx sy x idx8 board with e | ⟨r1, b1⟩
    · rw [ht] at h; cases h
    · rw [ht] at h
      obtain ⟨hb1, hr1⟩ := endYLoop_ok w sx sy x board idx8 r1 b1 ht
      subst hb1
      rcases hr1 with ⟨hr1, hall⟩ | ⟨hr1, y, _, hy⟩
      · subst hr1
        simp only [bind, Except.bind] at h
        obtain ⟨hb, hcase⟩ := ih r board' h
        refine ⟨hb, ?_⟩
        rcases hcase with ⟨h1, h2⟩ | ⟨h1, x2, hx2, h2⟩
        · refine Or.inl ⟨h1, ?_⟩
          intro x3 hx3 y3
          rcases List.mem_cons.mp hx3 with h3 | h3
          · rw [h3]; exact hall y3 (mem_idx8 y3)
          · exact h2 x3 h3 y3
        · exact Or.inr ⟨h1, x2, List.mem_cons_of_mem _ hx2, h2⟩
      · subst hr1
        simp only [bind, Except.bind, pure, Except.pure] at h
        injection h with h; injection h with h1 h2
        exact ⟨h2.symm, Or.inr ⟨h1.symm, x, List.mem_cons_self _ _, y, hy⟩⟩

theorem startYLoop_ok (w : Bool) (sx : Fin 8) (board : Board) :
    ∀ (ys : List (Fin 8)) (r : Option Bool) (board' : Board),
      startYLoop w sx ys board = .ok (r, board') →
      board' = board ∧
        ((r = none ∧ ∀ sy ∈ ys, ownPieceAt board w sx sy = true →
            ∀ x y, tryMove w sx sy x y board = .ok (none, board)) ∨
          (r = some false ∧ ∃ sy ∈ ys, ownPieceAt board w sx sy = true ∧
            ∃ x y, tryMove w sx sy x y board = .ok (some false, board))) := by
  intro ys
  induction ys with
  | nil =>
    intro r board' h
    simp only [startYLoop, pure, Except.pure] at h
    injection h with h; injection h with h1 h2
    exact ⟨h2.symm, Or.inl ⟨h1.symm, by simp⟩⟩
  | cons sy ys ih =>
    intro r board' h
    unfold startYLoop at h
    by_cases hown : ownPieceAt board w sx sy = true
    · rw [if_pos hown] at h
      rcases ht : endXLoop w sx sy idx8 board with e | ⟨r1, b1⟩
      · rw [ht] at h; cases h
      · rw [ht] at h
        obtain ⟨hb1, hr1⟩ := endXLoop_ok w sx sy board idx8 r1 b1 ht
        subst hb1
        rcases hr1 with ⟨hr1, hall⟩ | ⟨hr1, x, _, y, hy⟩
        · subst hr1
          simp only [bind, Except.bind] at h
          obtain ⟨hb, hcase⟩ := ih r board' h
          refine ⟨hb, ?_⟩
          rcases hcase with ⟨h1, h2⟩ | ⟨h1, s2, hs2, h2⟩
          · refine Or.inl ⟨h1, ?_⟩
            intro s3 hs3 _ x3 y3
            rcases List.mem_cons.mp hs3 with h3 | h3
            · rw [h3]; exact hall x3 (mem_idx8 x3) y3
            · exact h2 s3 h3 (by assumption) x3 y3
          · exact Or.inr ⟨h1, s2, List.mem_cons_of_mem _ hs2, h2⟩
        · subst hr1
          simp only [bind, Except.bind, pure, Except.pure] at h
          injection h with h; injection h with h1 h2
          exact ⟨h2.symm, Or.inr ⟨h1.symm, sy, List.mem_cons_self _ _, hown, x, y, hy⟩⟩
    · rw [if_neg hown] at h
      obtain ⟨hb, hcase⟩ := ih r board' h
      refine ⟨hb, ?_⟩
      rcases hcase with ⟨h1, h2⟩ | ⟨h1, s2, hs2, h2⟩
      · refine Or.inl ⟨h1, ?_⟩
        intro s3 hs3 hown3 x3 y3
        rcases List.mem_cons.mp hs3 with h3 | h3
        · rw [h3] at hown3; exact absurd hown3 hown
        · exact h2 s3 h3 hown3 x3 y3
      · exact Or.inr ⟨h1, s2, List.mem_cons_of_mem _ hs2, h2⟩

theorem startXLoop_ok (w : Bool) (board : Board) :
    ∀ (xs : List (Fin 8)) (r : Option Bool) (board' : Board),
      startXLoop w xs board = .ok (r, board') →
      board' = board ∧
        ((r = none ∧ ∀ sx ∈ xs, ∀ sy, ownPieceAt board w sx sy = true →
            ∀ x y, tryMove w sx sy x y board = .ok (none, board)) ∨
          (r = some false ∧ ∃ sx ∈ xs, ∃ sy, ownPieceAt board w sx sy = true ∧
            ∃ x y, tryMove w sx sy x y board = .ok (some false, board))) := by
  intro xs
  induction xs with
  | nil =>
    intro r board' h
    simp only [startXLoop, pure, Except.pure] at h
    injection h with h; injection h with h1 h2
    exact ⟨h2.symm, Or.inl ⟨h1.symm, by simp⟩⟩
  | cons sx xs ih =>
    intro r board' h
    unfold startXLoop at h
    rcases ht : startYLoop w sx idx8 board with e | ⟨r1, b1⟩
    · rw [ht] at h; cases h
    · rw [ht] at h
      obtain ⟨hb1, hr1⟩ := startYLoop_ok w sx board idx8 r1 b1 ht
      subst hb1
      rcases hr1 with ⟨hr1, hall⟩ | ⟨hr1, sy, _, hy⟩
      · subst hr1
        simp only [bind, Except.bind] at h
        obtain ⟨hb, hcase⟩ := ih r board' h
        refine ⟨hb, ?_⟩
        rcases hcase with ⟨h1, h2⟩ | ⟨h1, s2, hs2, h2⟩
        · refine Or.inl ⟨h1, ?_⟩
          intro s3 hs3 sy3 hown3 x3 y3
          rcases List.mem_cons.mp hs3 with h3 | h3
          · rw [h3] at hown3 ⊢; exact hall sy3 (mem_idx8 sy3) hown3 x3 y3
          · exact h2 s3 h3 sy3 hown3 x3 y3
        · exact Or.inr ⟨h1, s2, List.mem_cons_of_mem _ hs2, h2⟩
      · subst hr1
        simp only [bind, Except.bind, pure, Except.pure] at h
        injection h with h; injection h with h1 h2
        exact ⟨h2.symm, Or.inr ⟨h1.symm, sx, List.mem_cons_self _ _, sy, hy⟩⟩

/-- Whenever `isCheckmate` returns, the grid is as before the call; a `true` result means
that `isCheck` held and every pass (own piece, destination) went on without finding an
escape; a `false` result means that `isCheck` failed or some pass found an escape. -/
theorem isCheckmate_ok (board board' : Board) (w r : Bool)
    (h : isCheckmate board w = .ok (r, board')) :
    board' = board ∧
      ((r = true ∧ isCheck board w = .ok true ∧
          ∀ sx sy, ownPieceAt board w sx sy = true →
            ∀ x y, tryMove w sx sy x y board = .ok (none, board)) ∨
        (r = false ∧ (isCheck board w = .ok false ∨
          (isCheck board w = .ok true ∧ ∃ sx sy, ownPieceAt board w sx sy = true ∧
            ∃ x y, tryMove w sx sy x y board = .ok (some false, board))))) := by
  unfold isCheckmate at h
  rcases hc : isCheck board w with e | c
  · rw [hc] at h; cases h
  · rw [hc] at h
    cases c with
    | false =>
      simp only [bind, Except.bind, pure, Except.pure, Bool.not_false, if_true] at h
      injection h with h; injection h with h1 h2
      exact ⟨h2.symm, Or.inr ⟨h1.symm, Or.inl rfl⟩⟩
    | true =>
      simp only [bind, Except.bind, Bool.not_true, Bool.false_eq_true, if_false] at h
      rcases ht : startXLoop w idx8 board with e | ⟨r1, b1⟩
      · rw [ht] at h; cases h
      · rw [ht] at h
        obtain ⟨hb1, hr1⟩ := startXLoop_ok w board idx8 r1 b1 ht
        subst hb1
        rcases hr1 with ⟨hr1, hall⟩ | ⟨hr1, sx, _, hy⟩
        · subst hr1
          simp only [pure, Except.pure] at h
          injection h with h; injection h with h1 h2
          exact ⟨h2.symm, Or.inl ⟨h1.symm, rfl,
            fun sx sy hown x y => hall sx (mem_idx8 sx) sy hown x y⟩⟩
        · subst hr1
          simp only [pure, Except.pure] at h
          injection h with h; injection h with h1 h2
          exact ⟨h2.symm, Or.inr ⟨h1.symm, Or.inr ⟨rfl, sx, hy⟩⟩⟩


/-- C6: after `isCheckmate` returns, with either result, every square holds exactly the
occupant it held before the call (pawn flags included): the grid is the same function. -/
theorem isCheckmate_restores (board board' : Board) (w r : Bool)
    (h : isCheckmate board w = .ok (r, board')) : board' = board :=
  (isCheckmate_ok board board' w r h).1

theorem isCheckmate_restores_witness :
    ∃ board', isCheckmate rookCheck true = .ok (false, board') ∧ board' = rookCheck :=
  ⟨_, rfl, isCheckmate_restores rookCheck _ true false rfl⟩

set_option maxRecDepth 100000 in
/-- C3 (failing input): White king on (0,0), Black queen on (1,1), Black king on (2,2).  The
board has exactly one White king, White is in check and stays in check after every accepted
relocation, yet `isCheckmate(White)` does not return true: simulating the king's accepted
move to its own square empties that square, and `isCheck` then reads the uninitialised
`kingX`, `kingY`. -/
theorem isCheckmate_cornerMate :
    onlyKingAt cornerMate true 0 0 ∧ checkmateRule cornerMate true ∧
      (isCheckmate cornerMate true).map Prod.fst = .error .uninitializedRead := by
  refine ⟨cornerMate_onlyKing, ⟨by decide, by decide⟩, by decide⟩

theorem attackInRow_uninit (board : Board) (w : Bool) (row : Fin 8) :
    ∀ cols, attackInRow board w none row cols ≠ .ok true := by
  intro cols
  induction cols with
  | nil => intro h; cases h
  | cons col cols ih =>
    unfold attackInRow
    rcases hc : board row col with _ | p
    · simpa [bind, Except.bind, pure, Except.pure] using ih
    · by_cases hopp : ((w && p.getSymbol.isLower) || (!w && p.getSymbol.isUpper)) = true
      · simp only [if_pos hopp, bind, Except.bind]
        intro h; cases h
      · simp only [if_neg hopp, bind, Except.bind, pure, Except.pure, Bool.false_eq_true,
          if_false]
        exact ih

theorem attackScan_uninit (board : Board) (w : Bool) :
    ∀ rows, attackScan board w none rows ≠ .ok true := by
  intro rows
  induction rows with
  | nil => intro h; cases h
  | cons row rows ih =>
    unfold attackScan
    rcases hr : attackInRow board w none row idx8 with e | v
    · intro h; cases h
    · cases v with
      | true => exact absurd hr (attackInRow_uninit board w row idx8)
      | false => simpa [bind, Except.bind, pure, Except.pure] using ih

theorem findKing_absent (board : Board) (w : Bool)
    (h : ∀ i j, board i j ≠ some (.king w)) :
    ∀ rows king, findKing board (if w then 'K' else 'k') rows king = king := by
  intro rows
  induction rows with
  | nil => intro king; rfl
  | cons row rows ih =>
    intro king
    unfold findKing
    rw [findKingInRow_none board w row (h row) idx8]
    exact ih king

/-- On a board without a king of the colour, `isCheck` never returns true: it returns false
when no opposing piece is present and reads `kingX`, `kingY` uninitialised otherwise. -/
theorem isCheck_no_king (board : Board) (w : Bool)
    (h : ∀ i j, board i j ≠ some (.king w)) : isCheck board w ≠ .ok true := by
  unfold isCheck
  simp only []
  rw [findKing_absent board w h idx8 none]
  exact attackScan_uninit board w idx8

theorem king_own_square (w : Bool) (kx ky : Fin 8) (board : Board) :
    (Piece.king w).isValidMove kx ky kx ky board = .ok true := by
  simp [Piece.isValidMove, King.isValidMove, cabs, pure, Except.pure]

theorem ownPieceAt_iff (board : Board) (w : Bool) (i j : Fin 8) :
    ownPieceAt board w i j = true ↔ ∃ p, board i j = some p ∧ p.isWhite = w := by
  unfold ownPieceAt
  rcases hb : board i j with _ | p
  · simp
  · simp only [own_target_iff, Option.some.injEq, exists_eq_left']

/-- On a board with exactly one king of the colour `isCheckmate` never returns true: before it
could, it simulates the king's accepted move to its own square, which leaves no king on the
grid for `isCheck`. -/
theorem isCheckmate_never_true (board board' : Board) (w : Bool) (kx ky : Fin 8)
    (hk : onlyKingAt board w kx ky) : isCheckmate board w ≠ .ok (true, board') := by
  intro h
  obtain ⟨_, hcase⟩ := isCheckmate_ok board board' w true h
  rcases hcase with ⟨_, _, hall⟩ | ⟨hr, _⟩
  · have hown : ownPieceAt board w kx ky = true :=
      (ownPieceAt_iff board w kx ky).mpr ⟨_, hk.1, rfl⟩
    have ht := hall kx ky hown kx ky
    rw [tryMove_eq, hk.1] at ht
    simp only [king_own_square] at ht
    have hno : ∀ i j, hypothetical board kx ky kx ky i j ≠ some (.king w) := by
      intro i j hc
      unfold hypothetical at hc
      simp only [and_self, if_true, set_fin] at hc
      by_cases hij : i = kx ∧ j = ky
      · simp [hij] at hc
      · simp only [if_neg hij] at hc
        exact hij (hk.2 i j hc)
    rcases hc : isCheck (hypothetical board kx ky kx ky) w with e | c
    · rw [hc] at ht; cases ht
    · rw [hc] at ht
      cases c with
      | false =>
        simp only [] at ht
        injection ht with ht; injection ht with h1 _
        cases h1
      | true => exact isCheck_no_king _ w hno hc
  · cases hr

/-! ## `isStalemate` and the simulated grid -/

theorem staleEndY_ok (board : Board) (sx sy ex : Fin 8) :
    ∀ (ys : List (Fin 8)) (r : Bool), staleEndY board sx sy ex ys = .ok r →
      (r = true ∧ ∃ y ∈ ys, ∃ p, board sx sy = some p ∧
          p.isValidMove sx sy ex y board = .ok true) ∨
        (r = false ∧ ∀ y ∈ ys, ∃ p, board sx sy = some p ∧
          p.isValidMove sx sy ex y board = .ok false) := by
  intro ys
  induction ys with
  | nil =>
    intro r h
    simp only [staleEndY, pure, Except.pure] at h
    injection h with h
    exact Or.inr ⟨h.symm, by simp⟩
  | cons y ys ih =>
    intro r h
    unfold staleEndY at h
    rcases hb : board sx sy with _ | p
    · rw [hb] at h; cases h
    · rw [hb] at h
      simp only [] at h
      rcases hv : p.isValidMove sx sy ex y board with e | v
      · rw [hv] at h; cases h
      · rw [hv] at h
        cases v with
        | true =>
          simp only [bind, Except.bind, pure, Except.pure, if_true] at h
          injection h with h
          exact Or.inl ⟨h.symm, y, List.mem_cons_self _ _, p, rfl, hv⟩
        | false =>
          simp only [bind, Except.bind, Bool.false_eq_true, if_false] at h
          rcases ih r h with ⟨h1, y2, hy2, h2⟩ | ⟨h1, h2⟩
          · rw [hb] at h2
            exact Or.inl ⟨h1, y2, List.mem_cons_of_mem _ hy2, h2⟩
          · refine Or.inr ⟨h1, ?_⟩
            intro y3 hy3
            rcases List.mem_cons.mp hy3 with h3 | h3
            · rw [h3]; exact ⟨p, rfl, hv⟩
            · rw [hb] at h2; exact h2 y3 h3

theorem staleEndX_ok (board : Board) (sx sy : Fin 8) :
    ∀ (xs : List (Fin 8)) (r : Bool), staleEndX board sx sy xs = .ok r →
      (r = true ∧ ∃ x ∈ xs, ∃ y : Fin 8, ∃ p, board sx sy = some p ∧
          p.isValidMove sx sy x y board = .ok true) ∨
        (r = false ∧ ∀ x ∈ xs, ∀ y : Fin 8, ∃ p, board sx sy = some p ∧
          p.isValidMove sx sy x y board = .ok false) := by
  intro xs
  induction xs with
  | nil =>
    intro r h
    simp only [staleEndX, pure, Except.pure] at h
    injection h with h
    exact Or.inr ⟨h.symm, by simp⟩
  | cons x xs ih =>
    intro r h
    unfold staleEndX at h
    rcases hv : staleEndY board sx sy x idx8 with e | v
    · rw [hv] at h; cases h
    · rw [hv] at h
      rcases staleEndY_ok board sx sy x idx8 v hv with ⟨hv1, y, _, hy⟩ | ⟨hv1, hall⟩
      · subst hv1
        simp only [bind, Except.bind, pure, Except.pure, if_true] at h
        injection h with h
        exact Or.inl ⟨h.symm, x, List.mem_cons_self _ _, y, hy⟩
      · subst hv1
        simp only [bind, Except.bind, Bool.false_eq_true, if_false] at h
        rcases ih r h with ⟨h1, x2, hx2, h2⟩ | ⟨h1, h2⟩
        · exact Or.inl ⟨h1, x2, List.mem_cons_of_mem _ hx2, h2⟩
        · refine Or.inr ⟨h1, ?_⟩
          intro x3 hx3 y3
          rcases List.mem_cons.mp hx3 with h3 | h3
          · rw [h3]; exact hall y3 (mem_idx8 y3)
          · exact h2 x3 h3 y3

theorem staleStartY_ok (board : Board) (w : Bool) (sx : Fin 8) :
    ∀ (ys : List (Fin 8)) (r : Bool), staleStartY board w sx ys = .ok r →
      (r = true ∧ ∃ sy ∈ ys, ∃ x y, acceptsMove board w sx sy x y) ∨
        (r = false ∧ ∀ sy ∈ ys, ∀ x y, ¬ acceptsMove board w sx sy x y) := by
  intro ys
  induction ys with
  | nil =>
    intro r h
    simp only [staleStartY, pure, Except.pure] at h
    injection h with h
    exact Or.inr ⟨h.symm, by simp⟩
  | cons sy ys ih =>
    intro r h
    unfold staleStartY at h
    have step : ∀ (hno : ∀ x y, ¬ acceptsMove board w sx sy x y)
        (h2 : staleStartY board w sx ys = .ok r),
        (r = true ∧ ∃ s ∈ sy :: ys, ∃ x y, acceptsMove board w sx s x y) ∨
          (r = false ∧ ∀ s ∈ sy :: ys, ∀ x y, ¬ acceptsMove board w sx s x y) := by
      intro hno h2
      rcases ih r h2 with ⟨h1, s2, hs2, h3⟩ | ⟨h1, h3⟩
      · exact Or.inl ⟨h1, s2, List.mem_cons_of_mem _ hs2, h3⟩
      · refine Or.inr ⟨h1, ?_⟩
        intro s3 hs3 x3 y3
        rcases List.mem_cons.mp hs3 with h4 | h4
        · rw [h4]; exact hno x3 y3
        · exact h3 s3 h4 x3 y3
    by_cases hown : ownPieceAt board w sx sy = true
    · rw [if_pos hown] at h
      obtain ⟨q, hq, hqw⟩ := (ownPieceAt_iff board w sx sy).mp hown
      rcases hv : staleEndX board sx sy idx8 with e | v
      · rw [hv] at h; cases h
      · rw [hv] at h
        rcases staleEndX_ok board sx sy idx8 v hv with ⟨hv1, x, _, y, p, hp, hpv⟩ | ⟨hv1, hall⟩
        · subst hv1
          simp only [bind, Except.bind, pure, Except.pure, if_true] at h
          injection h with h
          refine Or.inl ⟨h.symm, sy, List.mem_cons_self _ _, x, y, p, hp, ?_, hpv⟩
          rw [hq] at hp
          injection hp with hp
          rw [← hp]; exact hqw
        · subst hv1
          simp only [bind, Except.bind, Bool.false_eq_true, if_false] at h
          refine step ?_ h
          rintro x y ⟨p, hp, _, hpv⟩
          obtain ⟨p2, hp2, hpv2⟩ := hall x (mem_idx8 x) y
          rw [hp] at hp2
          injection hp2 with hp2
          rw [← hp2, hpv] at hpv2
          cases hpv2
    · rw [if_neg hown] at h
      refine step ?_ h
      rintro x y ⟨p, hp, hpw, _⟩
      exact hown ((ownPieceAt_iff board w sx sy).mpr ⟨p, hp, hpw⟩)

theorem staleStartX_ok (board : Board) (w : Bool) :
    ∀ (xs : List (Fin 8)) (r : Bool), staleStartX board w xs = .ok r →
      (r = true ∧ ∃ sx ∈ xs, ∃ sy x y, acceptsMove board w sx sy x y) ∨
        (r = false ∧ ∀ sx ∈ xs, ∀ sy x y, ¬ acceptsMove board w sx sy x y) := by
  intro xs
  induction xs with
  | nil =>
    intro r h
    simp only [staleStartX, pure, Except.pure] at h
    injection h with h
    exact Or.inr ⟨h.symm, by simp⟩
  | cons sx xs ih =>
    intro r h
    unfold staleStartX at h
    rcases hv : staleStartY board w sx idx8 with e | v
    · rw [hv] at h; cases h
    · rw [hv] at h
      rcases staleStartY_ok board w sx idx8 v hv with ⟨hv1, sy, _, hy⟩ | ⟨hv1, hall⟩
      · subst hv1
        simp only [bind, Except.bind, pure, Except.pure, if_true] at h
        injection h with h
        exact Or.inl ⟨h.symm, sx, List.mem_cons_self _ _, sy, hy⟩
      · subst hv1
        simp only [bind, Except.bind, Bool.false_eq_true, if_false] at h
        rcases ih r h with ⟨h1, s2, hs2, h2⟩ | ⟨h1, h2⟩
        · exact Or.inl ⟨h1, s2, List.mem_cons_of_mem _ hs2, h2⟩
        · refine Or.inr ⟨h1, ?_⟩
          intro s3 hs3 sy3 x3 y3
          rcases List.mem_cons.mp hs3 with h3 | h3
          · rw [h3]; exact hall sy3 (mem_idx8 sy3) x3 y3
          · exact h2 s3 h3 sy3 x3 y3

/-- Whenever `isStalemate` returns, it returns false exactly when some piece of the colour
has an accepted move. -/
theorem isStalemate_ok (board : Board) (w r : Bool) (h : isStalemate board w = .ok r) :
    r = false ↔ ∃ sx sy x y, acceptsMove board w sx sy x y := by
  unfold isStalemate at h
  rcases hv : staleStartX board w idx8 with e | v
  · rw [hv] at h; cases h
  · rw [hv] at h
    simp only [bind, Except.bind, pure, Except.pure] at h
    injection h with h
    rcases staleStartX_ok board w idx8 v hv with ⟨hv1, sx, _, hy⟩ | ⟨hv1, hall⟩
    · subst hv1
      constructor
      · intro _; exact ⟨sx, hy⟩
      · intro _; rw [← h]; rfl
    · subst hv1
      constructor
      · intro hr; rw [← h] at hr; cases hr
      · rintro ⟨sx, sy, x, y, hacc⟩
        exact absurd hacc (hall sx (mem_idx8 sx) sy x y)

/-- For distinct origin and destination the grid on which `isCheckmate` tests `isCheck` is
the relocation the specification speaks of; for origin = destination the code empties the
square instead. -/
theorem hypothetical_eq_relocate (board : Board) (sx sy ex ey : Fin 8)
    (h : ¬ (sx = ex ∧ sy = ey)) :
    hypothetical board sx sy ex ey = relocate board sx sy ex ey := by
  have h2 : ¬ ((ex : Int) = sx ∧ (ey : Int) = sy) := by
    intro hc
    have := (fin_pair_iff ex ey sx sy).mp hc
    exact h ⟨this.1.symm, this.2.symm⟩
  have h3 : ¬ (sx = ex ∧ sy = ey) := h
  funext i j
  unfold hypothetical relocate
  rw [if_neg h2]
  simp only [set_fin]
  by_cases his : i = sx ∧ j = sy
  · have hie : ¬ (i = ex ∧ j = ey) := by
      rintro ⟨h4, h5⟩
      exact h ⟨his.1.symm.trans h4, his.2.symm.trans h5⟩
    simp only [if_pos his, if_neg hie]
  · by_cases hie : i = ex ∧ j = ey
    · simp only [if_neg his, if_pos hie, if_neg h3]
    · simp only [if_neg his, if_neg hie]

theorem hypothetical_own_square (board : Board) (sx sy : Fin 8) :
    hypothetical board sx sy sx sy = board.set sx sy none := by
  funext i j
  unfold hypothetical
  simp only [and_self, if_true, set_fin]
  by_cases his : i = sx ∧ j = sy
  · simp only [if_pos his]
  · simp only [if_neg his]

/-! ## The fuel of the path walks always suffices -/

theorem walkRank_fuel (board : Board) (x endY step : Int) :
    ∀ (n : Nat) (y : Int), endY = y + n * step →
      walkRank board x endY step (n + 1) y ≠ .error .fuelExhausted := by
  intro n
  induction n with
  | zero =>
    intro y hy
    have : y = endY := by simp at hy; exact hy.symm
    simp [walkRank, this]
  | succ n ih =>
    intro y hy
    rw [walkRank]
    by_cases h : y = endY
    · rw [if_pos h]; intro hc; cases hc
    · rw [if_neg h]
      unfold Board.cell
      by_cases hb : 0 ≤ x ∧ x < 8 ∧ 0 ≤ y ∧ y < 8
      · rw [if_pos hb]
        simp only [bind, Except.bind]
        split
        · intro hc; cases hc
        · apply ih
          rw [hy]; push_cast; ring
      · rw [if_neg hb]
        intro hc; cases hc

theorem walkDiag_fuel (board : Board) (sx sy stepX stepY dx : Int) :
    ∀ (n : Nat) (i : Int), i + n = dx →
      walkDiag board sx sy stepX stepY dx (n + 1) i ≠ .error .fuelExhausted := by
  intro n
  induction n with
  | zero =>
    intro i hi
    have : ¬ i < dx := by simp at hi; omega
    simp [walkDiag, this]
  | succ n ih =>
    intro i hi
    rw [walkDiag]
    by_cases h : i < dx
    · rw [if_pos h]
      unfold Board.cell
      split
      · simp only [bind, Except.bind]
        split
        · intro hc; cases hc
        · apply ih
          push_cast at hi; omega
      · intro hc; cases hc
    · rw [if_neg h]; intro hc; cases hc

theorem rankStep_fuel (board : Board) (x y1 y2 : Int) :
    (do
      let step ← cdiv (y2 - y1) (cabs (y2 - y1))
      walkRank board x y2 step (y2 - y1).natAbs (y1 + step)) ≠ .error .fuelExhausted := by
  by_cases h : y2 - y1 = 0
  · rw [h]
    simp [cabs, cdiv, bind, Except.bind]
  · rw [cdiv_cabs_sign _ h]
    simp only [bind, Except.bind]
    obtain ⟨n, hn, hn2⟩ : ∃ n : Nat, (y2 - y1).natAbs = n + 1 ∧
        (n : Int) + 1 = ((y2 - y1).natAbs : Int) :=
      ⟨(y2 - y1).natAbs - 1, by omega, by omega⟩
    rw [hn]
    apply walkRank_fuel
    have hs := Int.sign_mul_natAbs (y2 - y1)
    have : y1 + (y2 - y1).sign + (n : Int) * (y2 - y1).sign
        = y1 + (y2 - y1).sign * ((n : Int) + 1) := by ring
    rw [this, hn2, hs]
    ring

theorem fileStep_fuel (board : Board) (y x1 x2 : Int) :
    (do
      let step ← cdiv (x2 - x1) (cabs (x2 - x1))
      walkFile board y x2 step (x2 - x1).natAbs (x1 + step)) ≠ .error .fuelExhausted := by
  simp only [walkFile_eq_walkRank]
  exact rankStep_fuel _ y x1 x2

theorem diagStep_fuel (board : Board) (sx sy ex ey : Int) :
    (do
      let stepX ← cdiv (ex - sx) (cabs (ex - sx))
      let stepY ← cdiv (ey - sy) (cabs (ey - sy))
      walkDiag board sx sy stepX stepY (cabs (ex - sx)) (cabs (ex - sx)).toNat 1) ≠
      .error .fuelExhausted := by
  by_cases h : ex - sx = 0
  · rw [h]
    simp [cabs, cdiv, bind, Except.bind]
  · rw [cdiv_cabs_sign _ h]
    simp only [bind, Except.bind]
    rcases hc : cdiv (ey - sy) (cabs (ey - sy)) with e | stepY
    · simp only [cdiv] at hc
      split at hc
      · injection hc with hc; rw [← hc]; intro h2; cases h2
      · cases hc
    · simp only []
      obtain ⟨n, hn, hn2⟩ : ∃ n : Nat, (cabs (ex - sx)).toNat = n + 1 ∧
          1 + (n : Int) = cabs (ex - sx) := by
        have hp : 0 < cabs (ex - sx) := by
          unfold cabs
          split <;> omega
        exact ⟨(cabs (ex - sx) - 1).toNat, by omega, by omega⟩
      rw [hn]
      exact walkDiag_fuel board sx sy _ _ _ n 1 hn2

/-- `Rook::isValidMove` never runs out of fuel: its only faults are undefined operations of
the C++ code. -/
theorem rook_fuel (sx sy ex ey : Int) (board : Board) :
    Rook.isValidMove sx sy ex ey board ≠ .error .fuelExhausted := by
  unfold Rook.isValidMove
  split
  · intro h; cases h
  · split
    · exact rankStep_fuel board sx sy ey
    · exact fileStep_fuel board sy sx ex

/-- `Bishop::isValidMove` never runs out of fuel. -/
theorem bishop_fuel (sx sy ex ey : Int) (board : Board) :
    Bishop.isValidMove sx sy ex ey board ≠ .error .fuelExhausted := by
  unfold Bishop.isValidMove
  simp only []
  split
  · intro h; cases h
  · exact diagStep_fuel board sx sy ex ey

/-- `Queen::isValidMove` never runs out of fuel. -/
theorem queen_fuel (sx sy ex ey : Int) (board : Board) :
    Queen.isValidMove sx sy ex ey board ≠ .error .fuelExhausted := by
  unfold Queen.isValidMove
  simp only []
  split
  · intro h; cases h
  · split
    · exact rankStep_fuel board sx sy ey
    · split
      · exact fileStep_fuel board sy sx ex
      · exact diagStep_fuel board sx sy ex ey

theorem cabs_eq_iff (v k : Int) (hk : 0 < k) : cabs v = k ↔ (v = k ∨ v = -k) := by
  unfold cabs
  split <;> omega

theorem knight_iff_offsets (board : Board) (sx sy ex ey : Int) :
    Knight.isValidMove sx sy ex ey board = .ok true ↔
      (ex - sx, ey - sy) ∈ knightOffsets := by
  unfold Knight.isValidMove knightOffsets
  simp only [pure, Except.pure, Except.ok.injEq, decide_eq_true_eq, List.mem_cons, Prod.mk.injEq,
    List.mem_singleton, List.not_mem_nil, or_false]
  rw [cabs_eq_iff _ 2 (by decide), cabs_eq_iff _ 1 (by decide), cabs_eq_iff _ 1 (by decide),
    cabs_eq_iff _ 2 (by decide)]
  tauto

theorem mem_shift_iff (l : List (Int × Int)) (sx sy ex ey : Int) :
    (ex, ey) ∈ l.map (fun d => (sx + d.1, sy + d.2)) ↔ (ex - sx, ey - sy) ∈ l := by
  rw [List.mem_map]
  constructor
  · rintro ⟨⟨a, b⟩, hd, h⟩
    simp only [Prod.mk.injEq] at h
    have h1 : ex - sx = a := by omega
    have h2 : ey - sy = b := by omega
    rw [h1, h2]
    exact hd
  · intro h
    refine ⟨(ex - sx, ey - sy), h, ?_⟩
    simp

/-- C11: the in-bounds destinations accepted by `Knight::isValidMove` are exactly the squares
`origin + (±1,±2)`, `origin + (±2,±1)` that lie on the board, at most 8 of them, and the
result does not depend on the occupancy of any square. -/
theorem knight_targets (board board2 : Board) (sx sy ex ey : Int) :
    ((onBoard ex ey ∧ Knight.isValidMove sx sy ex ey board = .ok true) ↔
        (ex, ey) ∈ knightTargets sx sy) ∧
      (knightTargets sx sy).length ≤ 8 ∧
      Knight.isValidMove sx sy ex ey board = Knight.isValidMove sx sy ex ey board2 := by
  refine ⟨?_, ?_, rfl⟩
  · rw [knight_iff_offsets]
    unfold knightTargets
    rw [List.mem_filter, mem_shift_iff]
    simp only [decide_eq_true_eq]
    tauto
  · unfold knightTargets
    exact le_trans (List.length_filter_le _ _) (by simp [knightOffsets])

/-- C14: on the starting position (Black pawns on rank 1, White pawns on rank 6, back ranks
Rook-Knight-Bishop-Queen-King-Bishop-Knight-Rook on ranks 0 and 7, ranks 2 to 5 empty)
`isCheckmate(White)` and `isCheckmate(Black)` both return false. -/
theorem isCheckmate_start :
    (idx8.map (initializeBoard 0) = [some (.rook false), some (.knight false),
        some (.bishop false), some (.queen false), some (.king false), some (.bishop false),
        some (.knight false), some (.rook false)] ∧
      idx8.map (initializeBoard 7) = [some (.rook true), some (.knight true),
        some (.bishop true), some (.queen true), some (.king true), some (.bishop true),
        some (.knight true), some (.rook true)] ∧
      (∀ j, initializeBoard 1 j = some (.pawn false true)) ∧
      (∀ j, initializeBoard 6 j = some (.pawn true true)) ∧
      (∀ i j : Fin 8, 2 ≤ i → i ≤ 5 → initializeBoard i j = none)) ∧
      isCheckmate initializeBoard true = .ok (false, initializeBoard) ∧
      isCheckmate initializeBoard false = .ok (false, initializeBoard) := by
  refine ⟨⟨by decide, by decide, by decide, by decide, by decide⟩, rfl, rfl⟩

set_option maxRecDepth 1000000 in
/-- C15 (failing input): the four calls from the starting position each return true, but on the
position they reach `isCheckmate(White)` does not return true: the scan comes to the rook on
(7,0) and asks it about the move to (7,0), which divides by zero.  Moreover the pass for the
king taking its own pawn on (6,3) would execute `return false`. -/
theorem isCheckmate_foolsMate :
    (playMoves initializeBoard foolsMateMoves).map Prod.fst = .ok [true, true, true, true] ∧
      ((playMoves initializeBoard foolsMateMoves) >>= fun r =>
        (isCheckmate r.2 true).map Prod.fst) = .error .divisionByZero ∧
      ((playMoves initializeBoard foolsMateMoves) >>= fun r =>
        (tryMove true 7 4 6 3 r.2).map Prod.fst) = .ok (some false) := by
  refine ⟨by decide, by decide, by decide⟩

set_option maxRecDepth 1000000 in
/-- C17 (failing input): on every board and every square, `Rook::isValidMove`,
`Bishop::isValidMove` and `Queen::isValidMove` called with origin = destination divide by
zero; so does the scan of `isStalemate(Black)` on the starting position, at its very first
pass (rook on (0,0) against destination (0,0)), and the scan of `isCheckmate(White)` on the
fool's-mate position. -/
theorem own_square_divides_by_zero :
    (∀ (board : Board) (x y : Int),
        Rook.isValidMove x y x y board = .error .divisionByZero ∧
        Bishop.isValidMove x y x y board = .error .divisionByZero ∧
        Queen.isValidMove x y x y board = .error .divisionByZero) ∧
      staleEndY initializeBoard 0 0 0 idx8 = .error .divisionByZero ∧
      isStalemate initializeBoard false = .error .divisionByZero ∧
      ((playMoves initializeBoard foolsMateMoves) >>= fun r =>
        (isCheckmate r.2 true).map Prod.fst) = .error .divisionByZero := by
  refine ⟨fun board x y => ⟨rook_same_square board x y, bishop_same_square board x y,
    queen_same_square board x y⟩, by decide, by decide, by decide⟩

theorem movePiece_eq_with (board : Board) (sx sy ex ey : Int) (w : Bool) :
    movePiece board sx sy ex ey w = movePieceWith Piece.isValidMove board sx sy ex ey w := rfl

/-- `movePiece` always returns: it never reads outside the grid, never divides by zero. -/
theorem movePiece_total (board : Board) (sx sy ex ey : Int) (w : Bool) :
    ∃ r board', movePiece board sx sy ex ey w = .ok (r, board') := by
  by_cases hb : onBoard sx sy ∧ onBoard ex ey
  · rcases hsrc : board.occupant sx sy with _ | p
    · exact ⟨_, _, movePiece_rejects_of board sx sy ex ey w (Or.inr (Or.inl hsrc))⟩
    · by_cases hpw : p.isWhite = w
      · by_cases hq : ∀ q, board.occupant ex ey = some q → q.isWhite ≠ w
        · have hne : ¬ (ex = sx ∧ ey = sy) := by
            rintro ⟨h1, h2⟩
            rw [← h1, ← h2] at hsrc
            exact hq p hsrc hpw
          have hne2 : ¬ (sx = ex ∧ sy = ey) := fun h => hne ⟨h.1.symm, h.2.symm⟩
          obtain ⟨r, hr⟩ := isValidMove_total p board sx sy ex ey hb.1 hb.2 hne2
          cases r with
          | false =>
            exact ⟨_, _, movePiece_rejects_of board sx sy ex ey w
              (Or.inr (Or.inr (Or.inr (Or.inr ⟨p, hsrc, hr⟩))))⟩
          | true =>
            exact ⟨_, _, movePiece_accepts board sx sy ex ey w p hb.1 hb.2 hne hsrc hpw hq hr⟩
        · push_neg at hq
          obtain ⟨q, hq1, hq2⟩ := hq
          exact ⟨_, _, movePiece_rejects_of board sx sy ex ey w
            (Or.inr (Or.inr (Or.inr (Or.inl ⟨q, hq1, hq2⟩))))⟩
      · exact ⟨_, _, movePiece_rejects_of board sx sy ex ey w
          (Or.inr (Or.inr (Or.inl ⟨p, hsrc, hpw⟩)))⟩
  · exact ⟨_, _, movePiece_rejects_of board sx sy ex ey w (Or.inl hb)⟩

/-- A call of `movePiece` with origin = destination is rejected by the tests of lines 170-174,
whatever the piece rule would do. -/
theorem movePieceWith_same_square
    (rule : Piece → Int → Int → Int → Int → Board → Except Fault Bool)
    (board : Board) (x y : Int) (w : Bool) :
    movePieceWith rule board x y x y w = .ok (false, board) := by
  unfold movePieceWith
  by_cases hb : isWithinBounds x y x y = true
  · have hb2 := (isWithinBounds_iff x y x y).mp hb
    rw [hb, cell_onBoard board x y hb2.1]
    simp only [Bool.not_true, Bool.false_eq_true, if_false, bind, Except.bind]
    rcases hsrc : board.occupant x y with _ | p
    · rfl
    · simp only []
      by_cases hown : p.isWhite ≠ w
      · rw [if_pos ((wrong_owner_iff p w).mpr hown)]; rfl
      · rw [if_neg (fun hc => hown ((wrong_owner_iff p w).mp hc))]
        rw [if_pos ((own_target_iff p w).mpr (not_not.mp hown))]; rfl
  · have hb3 : isWithinBounds x y x y = false := by simpa using hb
    rw [hb3]; rfl

/-- C18: for all integer coordinates and both mover colours `movePiece` completes with a
result: no read outside `[0,8)x[0,8)`, no division by zero (either would be an `error`); and
a call with origin = destination returns false whatever the piece rule is, that is, before
any piece rule is evaluated. -/
theorem movePiece_safe (board : Board) (sx sy ex ey : Int) (w : Bool) :
    (∃ r board', movePiece board sx sy ex ey w = .ok (r, board')) ∧
      (∀ rule, movePieceWith rule board sx sy sx sy w = .ok (false, board)) ∧
      movePiece board sx sy ex ey w = movePieceWith Piece.isValidMove board sx sy ex ey w :=
  ⟨movePiece_total board sx sy ex ey w,
    fun rule => movePieceWith_same_square rule board sx sy w, rfl⟩

theorem king_accepts_own_square (board : Board) (w : Bool) (kx ky : Fin 8)
    (hk : board kx ky = some (.king w)) : acceptsMove board w kx ky kx ky :=
  ⟨.king w, hk, rfl, king_own_square w kx ky board⟩

theorem isStalemate_ne_true (board : Board) (w : Bool) (kx ky : Fin 8)
    (hk : board kx ky = some (.king w)) : isStalemate board w ≠ .ok true := by
  intro h
  have := (isStalemate_ok board w true h).mpr ⟨kx, ky, kx, ky, king_accepts_own_square board w kx ky hk⟩
  cases this

/-- C19: on a board with a king of the colour `isStalemate` never returns true;
`King::isValidMove` accepts exactly the destinations at most one rank and one file away, the
king's own square included, whatever the occupancy. -/
theorem isStalemate_never_true (board : Board) (w : Bool) (kx ky : Fin 8)
    (hk : board kx ky = some (.king w)) :
    isStalemate board w ≠ .ok true ∧
      (Piece.king w).isValidMove kx ky kx ky board = .ok true ∧
      (∀ (board2 : Board) (ex ey : Int), (Piece.king w).isValidMove kx ky ex ey board2 =
        .ok (decide (cabs (ex - kx) ≤ 1 ∧ cabs (ey - ky) ≤ 1))) :=
  ⟨isStalemate_ne_true board w kx ky hk, king_own_square w kx ky board, fun _ _ _ => rfl⟩

theorem isStalemate_never_true_witness :
    cornerMate 0 0 = some (.king true) ∧
      (isStalemate cornerMate true ≠ .ok true ∧
        (Piece.king true).isValidMove (0 : Fin 8) (0 : Fin 8) (0 : Fin 8) (0 : Fin 8) cornerMate =
          .ok true ∧
        (∀ (board2 : Board) (ex ey : Int),
          (Piece.king true).isValidMove (0 : Fin 8) (0 : Fin 8) ex ey board2 =
            .ok (decide (cabs (ex - (0 : Fin 8)) ≤ 1 ∧ cabs (ey - (0 : Fin 8)) ≤ 1)))) :=
  ⟨by decide, isStalemate_never_true cornerMate true 0 0 (by decide)⟩

theorem staleEndY_total (board : Board) (sx sy ex : Fin 8)
    (h : ∀ y : Fin 8, ∃ p r, board sx sy = some p ∧ p.isValidMove sx sy ex y board = .ok r) :
    ∀ ys, ∃ r, staleEndY board sx sy ex ys = .ok r := by
  intro ys
  induction ys with
  | nil => exact ⟨false, rfl⟩
  | cons y ys ih =>
    obtain ⟨p, r, hp, hr⟩ := h y
    unfold staleEndY
    rw [hp]
    simp only [hr, bind, Except.bind]
    cases r with
    | true => exact ⟨true, rfl⟩
    | false =>
      simp only [Bool.false_eq_true, if_false]
      exact ih

theorem staleEndX_total (board : Board) (sx sy : Fin 8)
    (h : ∀ x y : Fin 8, ∃ p r, board sx sy = some p ∧ p.isValidMove sx sy x y board = .ok r) :
    ∀ xs, ∃ r, staleEndX board sx sy xs = .ok r := by
  intro xs
  induction xs with
  | nil => exact ⟨false, rfl⟩
  | cons x xs ih =>
    obtain ⟨r, hr⟩ := staleEndY_total board sx sy x (h x) idx8
    unfold staleEndX
    simp only [hr, bind, Except.bind]
    cases r with
    | true => exact ⟨true, rfl⟩
    | false =>
      simp only [Bool.false_eq_true, if_false]
      exact ih

theorem staleStartY_total (board : Board) (w : Bool) (sx : Fin 8)
    (h : ∀ sy : Fin 8, ownPieceAt board w sx sy = true →
      ∀ x y : Fin 8, ∃ p r, board sx sy = some p ∧ p.isValidMove sx sy x y board = .ok r) :
    ∀ ys, ∃ r, staleStartY board w sx ys = .ok r := by
  intro ys
  induction ys with
  | nil => exact ⟨false, rfl⟩
  | cons sy ys ih =>
    unfold staleStartY
    by_cases hown : ownPieceAt board w sx sy = true
    · obtain ⟨r, hr⟩ := staleEndX_total board sx sy (h sy hown) idx8
      rw [if_pos hown]
      simp only [hr, bind, Except.bind]
      cases r with
      | true => exact ⟨true, rfl⟩
      | false =>
        simp only [Bool.false_eq_true, if_false]
        exact ih
    · rw [if_neg hown]
      exact ih

theorem staleStartX_total (board : Board) (w : Bool)
    (h : ∀ sx sy : Fin 8, ownPieceAt board w sx sy = true →
      ∀ x y : Fin 8, ∃ p r, board sx sy = some p ∧ p.isValidMove sx sy x y board = .ok r) :
    ∀ xs, ∃ r, staleStartX board w xs = .ok r := by
  intro xs
  induction xs with
  | nil => exact ⟨false, rfl⟩
  | cons sx xs ih =>
    obtain ⟨r, hr⟩ := staleStartY_total board w sx (h sx) idx8
    unfold staleStartX
    simp only [hr, bind, Except.bind]
    cases r with
    | true => exact ⟨true, rfl⟩
    | false =>
      simp only [Bool.false_eq_true, if_false]
      exact ih

/-- When no rule of the colour's pieces faults on any destination, `isStalemate` returns. -/
theorem isStalemate_total (board : Board) (w : Bool)
    (h : ∀ sx sy : Fin 8, ownPieceAt board w sx sy = true →
      ∀ x y : Fin 8, ∃ p r, board sx sy = some p ∧ p.isValidMove sx sy x y board = .ok r) :
    ∃ r, isStalemate board w = .ok r := by
  obtain ⟨r, hr⟩ := staleStartX_total board w h idx8
  unfold isStalemate
  simp only [hr, bind, Except.bind]
  exact ⟨!r, rfl⟩

theorem isStalemate_lone_king_of (board : Board) (w : Bool) (kx ky : Fin 8)
    (hk : board kx ky = some (.king w))
    (honly : ∀ i j : Fin 8, ownPieceAt board w i j = true → i = kx ∧ j = ky) :
    isStalemate board w = .ok false := by
  have htot : ∃ r, isStalemate board w = .ok r := by
    apply isStalemate_total
    intro sx sy hown x y
    obtain ⟨h1, h2⟩ := honly sx sy hown
    subst h1; subst h2
    exact ⟨.king w, _, hk, rfl⟩
  obtain ⟨r, hr⟩ := htot
  cases r with
  | false => exact hr
  | true => exact absurd hr (isStalemate_ne_true board w kx ky hk)

/-- C16 (counterexample): White's only piece is the king on (0,0); it is not attacked
(`isCheck(White)` is false) and each of its in-bounds neighbours (0,1), (1,0), (1,1) is
attacked by the Black queen on (2,1), so the king has no legal move; yet
`isStalemate(White)` returns false, not true. -/
theorem isStalemate_false_on_stalemate :
    loneKing 0 0 = some (.king true) ∧
      (∀ i j : Fin 8, ownPieceAt loneKing true i j = true → i = 0 ∧ j = 0) ∧
      isCheck loneKing true = .ok false ∧
      (∀ ex ey : Fin 8, ex ≤ 1 → ey ≤ 1 → ¬ (ex = 0 ∧ ey = 0) →
        ∃ i j : Fin 8, acceptsMove loneKing false i j ex ey) ∧
      isStalemate loneKing true = .ok false ∧
      isStalemate loneKing true ≠ .ok true := by
  refine ⟨by decide, by decide, by decide, by decide, by decide, by decide⟩

/-- C16 (amended): on a board where the colour's only piece is a king, `isStalemate` returns
false, whether or not the king is attacked and whether or not the squares next to it are
attacked or occupied; in particular it returns false when an escape square is available. -/
theorem isStalemate_lone_king (board : Board) (w : Bool) (kx ky : Fin 8)
    (hk : board kx ky = some (.king w))
    (honly : ∀ i j : Fin 8, ownPieceAt board w i j = true → i = kx ∧ j = ky) :
    isStalemate board w = .ok false :=
  isStalemate_lone_king_of board w kx ky hk honly

theorem isStalemate_lone_king_witness :
    rookCheck 1 1 = some (.king true) ∧
      (∀ i j : Fin 8, ownPieceAt rookCheck true i j = true → i = 1 ∧ j = 1) ∧
      isStalemate rookCheck true = .ok false :=
  ⟨by decide, by decide, isStalemate_lone_king rookCheck true 1 1 (by decide) (by decide)⟩

theorem move_eq_king (p : Piece) (c : Bool) : p.move = .king c ↔ p = .king c := by
  cases p <;> simp [Piece.move]

theorem move_isWhite (p : Piece) : p.move.isWhite = p.isWhite := by
  cases p <;> rfl

/-- Every call of `movePiece` either returns false with the grid untouched or returns true. -/
theorem movePiece_cases (board : Board) (sx sy ex ey : Int) (w : Bool) :
    movePiece board sx sy ex ey w = .ok (false, board) ∨
      ∃ board', movePiece board sx sy ex ey w = .ok (true, board') := by
  obtain ⟨r, b', h⟩ := movePiece_total board sx sy ex ey w
  cases r with
  | true => exact Or.inr ⟨b', h⟩
  | false =>
    left
    by_cases hb : onBoard sx sy ∧ onBoard ex ey
    · rcases hsrc : board.occupant sx sy with _ | p
      · exact movePiece_rejects_of board sx sy ex ey w (Or.inr (Or.inl hsrc))
      · by_cases hpw : p.isWhite = w
        · by_cases hq : ∀ q, board.occupant ex ey = some q → q.isWhite ≠ w
          · have hne : ¬ (ex = sx ∧ ey = sy) := by
              rintro ⟨h1, h2⟩
              rw [← h1, ← h2] at hsrc
              exact hq p hsrc hpw
            have hne2 : ¬ (sx = ex ∧ sy = ey) := fun h => hne ⟨h.1.symm, h.2.symm⟩
            obtain ⟨v, hv⟩ := isValidMove_total p board sx sy ex ey hb.1 hb.2 hne2
            cases v with
            | false =>
              exact movePiece_rejects_of board sx sy ex ey w
                (Or.inr (Or.inr (Or.inr (Or.inr ⟨p, hsrc, hv⟩))))
            | true =>
              rw [movePiece_accepts board sx sy ex ey w p hb.1 hb.2 hne hsrc hpw hq hv] at h
              injection h with h
              injection h with h1 _
              cases h1
          · push_neg at hq
            obtain ⟨q, hq1, hq2⟩ := hq
            exact movePiece_rejects_of board sx sy ex ey w
              (Or.inr (Or.inr (Or.inr (Or.inl ⟨q, hq1, hq2⟩))))
        · exact movePiece_rejects_of board sx sy ex ey w
            (Or.inr (Or.inr (Or.inl ⟨p, hsrc, hpw⟩)))
    · exact movePiece_rejects_of board sx sy ex ey w (Or.inl hb)

theorem movePiece_false_board (board board' : Board) (sx sy ex ey : Int) (w : Bool)
    (h : movePiece board sx sy ex ey w = .ok (false, board')) : board' = board := by
  rcases movePiece_cases board sx sy ex ey w with h2 | ⟨b2, h2⟩
  · rw [h2] at h
    injection h with h
    injection h with _ h3
    exact h3.symm
  · rw [h2] at h
    injection h with h
    injection h with h3 _
    cases h3

/-- A successful `movePiece`, square by square: the origin is emptied, the destination takes
the moved piece, every other square keeps its occupant. -/
theorem movePiece_true_fin (board board' : Board) (sx sy ex ey : Int) (w : Bool)
    (h : movePiece board sx sy ex ey w = .ok (true, board')) :
    ∃ (s1 s2 e1 e2 : Fin 8) (p : Piece), (s1 : Int) = sx ∧ (s2 : Int) = sy ∧ (e1 : Int) = ex ∧
      (e2 : Int) = ey ∧ ¬ (e1 = s1 ∧ e2 = s2) ∧ board s1 s2 = some p ∧ p.isWhite = w ∧
      (∀ q, board e1 e2 = some q → q.isWhite ≠ w) ∧
      p.isValidMove sx sy ex ey board = .ok true ∧
      ∀ i j, board' i j =
        if i = s1 ∧ j = s2 then none else if i = e1 ∧ j = e2 then some p.move else board i j := by
  obtain ⟨hs, he, hne, p, hsrc, hpw, hq, hv, hb⟩ := movePiece_true_inv board board' sx sy ex ey w h
  obtain ⟨s1, s2, hs1, hs2⟩ := exists_fin_of_onBoard sx sy hs
  obtain ⟨e1, e2, he1, he2⟩ := exists_fin_of_onBoard ex ey he
  subst hs1; subst hs2; subst he1; subst he2
  rw [occupant_fin] at hsrc
  refine ⟨s1, s2, e1, e2, p, rfl, rfl, rfl, rfl, ?_, hsrc, hpw, ?_, hv, ?_⟩
  · intro hc
    exact hne ((fin_pair_iff e1 e2 s1 s2).mpr hc)
  · intro q hq2
    exact hq q (by rw [occupant_fin]; exact hq2)
  · intro i j
    rw [hb]
    simp only [set_fin]
    by_cases his : i = s1 ∧ j = s2
    · simp only [if_pos his]
    · simp only [if_neg his]

theorem kings_after_move_own (board board' : Board) (sx sy ex ey : Int) (w : Bool)
    (h : movePiece board sx sy ex ey w = .ok (true, board')) (hk : oneKing board w) :
    oneKing board' w := by
  obtain ⟨s1, s2, e1, e2, p, _, _, _, _, hne, hsrc, hpw, hq, _, hb⟩ :=
    movePiece_true_fin board board' sx sy ex ey w h
  obtain ⟨kx, ky, hk1, hk2⟩ := hk
  by_cases hp : p = .king w
  · have hks := hk2 s1 s2 (by rw [hsrc, hp])
    refine ⟨e1, e2, ?_, ?_⟩
    · rw [hb, if_neg hne, if_pos ⟨rfl, rfl⟩, hp]; rfl
    · intro i j hij
      rw [hb] at hij
      by_cases his : i = s1 ∧ j = s2
      · rw [if_pos his] at hij; cases hij
      · rw [if_neg his] at hij
        by_cases hie : i = e1 ∧ j = e2
        · exact hie
        · rw [if_neg hie] at hij
          have := hk2 i j hij
          exact absurd ⟨this.1.trans hks.1.symm, this.2.trans hks.2.symm⟩ his
  · have hks : ¬ (kx = s1 ∧ ky = s2) := by
      rintro ⟨h1, h2⟩
      rw [h1, h2, hsrc] at hk1
      injection hk1 with hk1
      exact hp hk1
    have hke : ¬ (kx = e1 ∧ ky = e2) := by
      rintro ⟨h1, h2⟩
      rw [h1, h2] at hk1
      exact hq _ hk1 rfl
    refine ⟨kx, ky, ?_, ?_⟩
    · rw [hb, if_neg hks, if_neg hke]; exact hk1
    · intro i j hij
      rw [hb] at hij
      by_cases his : i = s1 ∧ j = s2
      · rw [if_pos his] at hij; cases hij
      · rw [if_neg his] at hij
        by_cases hie : i = e1 ∧ j = e2
        · rw [if_pos hie] at hij
          injection hij with hij
          exact absurd ((move_eq_king p w).mp hij) hp
        · rw [if_neg hie] at hij
          exact hk2 i j hij

theorem kings_after_move_other (board board' : Board) (sx sy ex ey : Int) (w : Bool)
    (h : movePiece board sx sy ex ey w = .ok (true, board')) (hk : oneKing board (!w))
    (hdst : board.occupant ex ey ≠ some (.king (!w))) :
    oneKing board' (!w) := by
  obtain ⟨s1, s2, e1, e2, p, _, _, he1, he2, hne, hsrc, hpw, hq, _, hb⟩ :=
    movePiece_true_fin board board' sx sy ex ey w h
  subst he1; subst he2
  rw [occupant_fin] at hdst
  obtain ⟨kx, ky, hk1, hk2⟩ := hk
  have hpk : p.move ≠ .king (!w) := by
    intro hc
    have := move_isWhite p
    rw [hc, hpw] at this
    cases w <;> simp [Piece.isWhite] at this
  have hks : ¬ (kx = s1 ∧ ky = s2) := by
    rintro ⟨h1, h2⟩
    rw [h1, h2, hsrc] at hk1
    injection hk1 with hk1
    rw [hk1] at hpw
    cases w <;> simp [Piece.isWhite] at hpw
  have hke : ¬ (kx = e1 ∧ ky = e2) := by
    rintro ⟨h1, h2⟩
    rw [h1, h2] at hk1
    exact hdst hk1
  refine ⟨kx, ky, ?_, ?_⟩
  · rw [hb, if_neg hks, if_neg hke]; exact hk1
  · intro i j hij
    rw [hb] at hij
    by_cases his : i = s1 ∧ j = s2
    · rw [if_pos his] at hij; cases hij
    · rw [if_neg his] at hij
      by_cases hie : i = e1 ∧ j = e2
      · rw [if_pos hie] at hij
        injection hij with hij
        exact absurd hij hpk
      · rw [if_neg hie] at hij
        exact hk2 i j hij

theorem kings_after_capture (board board' : Board) (sx sy ex ey : Int) (w : Bool)
    (h : movePiece board sx sy ex ey w = .ok (true, board')) (hk : oneKing board (!w))
    (hdst : board.occupant ex ey = some (.king (!w))) :
    ∀ i j, board' i j ≠ some (.king (!w)) := by
  obtain ⟨s1, s2, e1, e2, p, _, _, he1, he2, hne, hsrc, hpw, hq, _, hb⟩ :=
    movePiece_true_fin board board' sx sy ex ey w h
  subst he1; subst he2
  rw [occupant_fin] at hdst
  obtain ⟨kx, ky, hk1, hk2⟩ := hk
  have hpk : p.move ≠ .king (!w) := by
    intro hc
    have := move_isWhite p
    rw [hc, hpw] at this
    cases w <;> simp [Piece.isWhite] at this
  have hke := hk2 e1 e2 hdst
  intro i j hij
  rw [hb] at hij
  by_cases his : i = s1 ∧ j = s2
  · rw [if_pos his] at hij; cases hij
  · rw [if_neg his] at hij
    by_cases hie : i = e1 ∧ j = e2
    · rw [if_pos hie] at hij
      injection hij with hij
      exact absurd hij hpk
    · rw [if_neg hie] at hij
      have := hk2 i j hij
      exact hie ⟨this.1.trans hke.1.symm, this.2.trans hke.2.symm⟩

theorem oneKing_of_bool (board : Board) (hW : oneKing board true) (hB : oneKing board false)
    (c : Bool) : oneKing board c := by
  cases c
  · exact hB
  · exact hW

/-- C12 (counterexample): the board has exactly one king of each colour; White's rook takes
the Black king by `movePiece`, which returns true, and no Black king is left. -/
theorem movePiece_takes_king :
    oneKing kingCapture true ∧ oneKing kingCapture false ∧
      ∃ board', movePiece kingCapture 0 0 0 1 true = .ok (true, board') ∧
        ¬ oneKing board' false := by
  refine ⟨⟨7, 7, by decide, by decide⟩, ⟨0, 1, by decide, by decide⟩, _, rfl, ?_⟩
  rintro ⟨kx, ky, h, _⟩
  revert kx ky
  decide

/-- C12 (amended): on a board with exactly one king of each colour, `isCheckmate`, whenever it
returns, leaves exactly one king of each colour; `movePiece` always leaves exactly one king
of the mover colour, and exactly one king of the other colour unless it returns true with
that king on the destination, in which case no king of that colour is left. -/
theorem kings_preserved (board : Board) (hW : oneKing board true) (hB : oneKing board false) :
    (∀ (w r : Bool) (board' : Board), isCheckmate board w = .ok (r, board') →
        oneKing board' true ∧ oneKing board' false) ∧
      (∀ (sx sy ex ey : Int) (w r : Bool) (board' : Board),
        movePiece board sx sy ex ey w = .ok (r, board') →
          oneKing board' w ∧
          ((r = false ∨ board.occupant ex ey ≠ some (.king (!w))) → oneKing board' (!w)) ∧
          (r = true → board.occupant ex ey = some (.king (!w)) →
            ∀ i j, board' i j ≠ some (.king (!w)))) := by
  constructor
  · intro w r board' h
    rw [(isCheckmate_ok board board' w r h).1]
    exact ⟨hW, hB⟩
  · intro sx sy ex ey w r board' h
    have hown := oneKing_of_bool board hW hB w
    have hother := oneKing_of_bool board hW hB (!w)
    cases r with
    | false =>
      rw [movePiece_false_board board board' sx sy ex ey w h]
      exact ⟨hown, fun _ => hother, fun hc => by cases hc⟩
    | true =>
      refine ⟨kings_after_move_own board board' sx sy ex ey w h hown, ?_, ?_⟩
      · rintro (hc | hc)
        · cases hc
        · exact kings_after_move_other board board' sx sy ex ey w h hother hc
      · intro _ hdst
        exact kings_after_capture board board' sx sy ex ey w h hother hdst

theorem kings_preserved_witness :
    oneKing initializeBoard true ∧ oneKing initializeBoard false ∧
      ((∀ (w r : Bool) (board' : Board), isCheckmate initializeBoard w = .ok (r, board') →
          oneKing board' true ∧ oneKing board' false) ∧
        (∀ (sx sy ex ey : Int) (w r : Bool) (board' : Board),
          movePiece initializeBoard sx sy ex ey w = .ok (r, board') →
            oneKing board' w ∧
            ((r = false ∨ initializeBoard.occupant ex ey ≠ some (.king (!w))) →
              oneKing board' (!w)) ∧
            (r = true → initializeBoard.occupant ex ey = some (.king (!w)) →
              ∀ i j, board' i j ≠ some (.king (!w))))) :=
  ⟨⟨7, 4, by decide, by decide⟩, ⟨0, 4, by decide, by decide⟩,
    kings_preserved initializeBoard ⟨7, 4, by decide, by decide⟩ ⟨0, 4, by decide, by decide⟩⟩

/-- The effect of a successful `movePiece` on the occupants. -/
theorem movePiece_true_occ (board board' : Board) (sx sy ex ey : Int) (w : Bool)
    (h : movePiece board sx sy ex ey w = .ok (true, board')) :
    ∃ p, board.occupant sx sy = some p ∧
      board'.occupant ex ey = some p.move ∧
      board'.occupant sx sy = none ∧
      ∀ x y : Int, ¬ (x = sx ∧ y = sy) → ¬ (x = ex ∧ y = ey) →
        board'.occupant x y = board.occupant x y := by
  obtain ⟨hs, he, hne, p, hsrc, _, _, _, hb⟩ := movePiece_true_inv board board' sx sy ex ey w h
  refine ⟨p, hsrc, ?_, ?_, ?_⟩
  · have hne3 : ¬ (ex = sx ∧ ey = sy ∧ onBoard ex ey) := fun hc => hne ⟨hc.1, hc.2.1⟩
    rw [hb]
    simp only [occupant_set, hne3, if_false]
    simp only [he, and_self, if_true]
  · rw [hb]
    simp only [occupant_set, hs, and_self, if_true]
  · intro x y h1 h2
    have h1b : ¬ (x = sx ∧ y = sy ∧ onBoard x y) := fun hc => h1 ⟨hc.1, hc.2.1⟩
    have h2b : ¬ (x = ex ∧ y = ey ∧ onBoard x y) := fun hc => h2 ⟨hc.1, hc.2.1⟩
    rw [hb]
    simp only [occupant_set, h1b, h2b, if_false]

/-- The moved-flag is a latch: a pawn whose `isFirstMove` is false keeps it false wherever the
later calls carry it. -/
theorem tracks_moved_pawn (b b2 : Board) (p q : Int × Int) (h : Tracks b p b2 q) (c : Bool)
    (hp : b.occupant p.1 p.2 = some (.pawn c false)) :
    b2.occupant q.1 q.2 = some (.pawn c false) := by
  induction h with
  | start => exact hp
  | carried sx sy ex ey w _ hm ih =>
    obtain ⟨p2, h1, h2, _, _⟩ := movePiece_true_occ _ _ _ _ _ _ _ hm
    have ih' := ih hp
    simp only at ih'
    rw [ih'] at h1
    injection h1 with h1
    rw [← h1] at h2
    exact h2
  | bystander sx sy ex ey w _ hm hc1 hc2 ih =>
    obtain ⟨_, _, _, _, h4⟩ := movePiece_true_occ _ _ _ _ _ _ _ hm
    rw [h4 _ _ (fun hc => hc1 (Prod.ext hc.1 hc.2)) (fun hc => hc2 (Prod.ext hc.1 hc.2))]
    exact ih hp
  | rejected sx sy ex ey w _ hm ih =>
    rw [movePiece_false_board _ _ _ _ _ _ _ hm]
    exact ih hp
  | query w r _ hm ih =>
    rw [(isCheckmate_ok _ _ _ _ hm).1]
    exact ih hp

theorem moved_pawn_double (c : Bool) (x y : Int) (board : Board) :
    (Piece.pawn c false).isValidMove x y (pawnForward c (pawnForward c x)) y board =
      .ok false := by
  have h1 : ¬ (x + -1 = x - 1 - 1) := by omega
  have h2 : ¬ (x + 1 = x + 1 + 1) := by omega
  cases c <;>
    simp [Piece.isValidMove, Pawn.isValidMove, pawnForward, bind, Except.bind, pure, Except.pure,
      h1, h2]

/-- C13: after a `movePiece` call that successfully relocates a pawn, every later `movePiece`
call (after any further calls of `movePiece` and `isCheckmate`, while the pawn is on the
board) that asks this pawn to advance two squares straight forward returns false, whatever
the occupancy of the squares and whoever is the mover. -/
theorem pawn_double_step_once (board board1 board2 : Board) (sx sy ex ey x y : Int)
    (w w2 c f : Bool) (hp : board.occupant sx sy = some (.pawn c f))
    (h : movePiece board sx sy ex ey w = .ok (true, board1))
    (ht : Tracks board1 (ex, ey) board2 (x, y)) :
    board2.occupant x y = some (.pawn c false) ∧
      movePiece board2 x y (pawnForward c (pawnForward c x)) y w2 = .ok (false, board2) := by
  obtain ⟨p, h1, h2, _, _⟩ := movePiece_true_occ board board1 sx sy ex ey w h
  rw [hp] at h1
  injection h1 with h1
  rw [← h1] at h2
  have hocc := tracks_moved_pawn board1 board2 (ex, ey) (x, y) ht c h2
  refine ⟨hocc, ?_⟩
  exact movePiece_rejects_of board2 x y _ y w2
    (Or.inr (Or.inr (Or.inr (Or.inr ⟨_, hocc, moved_pawn_double c x y board2⟩))))

theorem pawn_double_step_once_witness :
    ∃ board1 board2, initializeBoard.occupant 6 4 = some (.pawn true true) ∧
      movePiece initializeBoard 6 4 5 4 true = .ok (true, board1) ∧
      movePiece board1 1 0 2 0 false = .ok (true, board2) ∧
      Tracks board1 (5, 4) board2 (5, 4) ∧
      board2.occupant 5 4 = some (.pawn true false) ∧
      movePiece board2 5 4 (pawnForward true (pawnForward true 5)) 4 true = .ok (false, board2) :=
  ⟨_, _, rfl, rfl, rfl,
    Tracks.bystander 1 0 2 0 false (Tracks.start _ _) rfl (by decide) (by decide),
    pawn_double_step_once initializeBoard _ _ 6 4 5 4 5 4 true true true true rfl rfl
      (Tracks.bystander 1 0 2 0 false (Tracks.start _ _) rfl (by decide) (by decide))⟩

theorem cell_congr (b1 b2 : Board) (hocc : ∀ i j, (b1 i j).isSome = (b2 i j).isSome)
    (x y : Int) :
    (b1.cell x y = .error .outOfRange ∧ b2.cell x y = .error .outOfRange) ∨
      ∃ o1 o2, b1.cell x y = .ok o1 ∧ b2.cell x y = .ok o2 ∧ o1.isSome = o2.isSome := by
  unfold Board.cell
  by_cases h : 0 ≤ x ∧ x < 8 ∧ 0 ≤ y ∧ y < 8
  · rw [if_pos h, if_pos h]
    exact Or.inr ⟨_, _, rfl, rfl, hocc _ _⟩
  · rw [if_neg h, if_neg h]
    exact Or.inl ⟨rfl, rfl⟩

theorem walkRank_congr (b1 b2 : Board) (hocc : ∀ i j, (b1 i j).isSome = (b2 i j).isSome)
    (x endY step : Int) :
    ∀ (fuel : Nat) (y : Int),
      walkRank b1 x endY step fuel y = walkRank b2 x endY step fuel y := by
  intro fuel
  induction fuel with
  | zero => intro y; rfl
  | succ n ih =>
    intro y
    rw [walkRank, walkRank]
    by_cases h : y = endY
    · rw [if_pos h, if_pos h]
    · rw [if_neg h, if_neg h]
      rcases cell_congr b1 b2 hocc x y with ⟨h1, h2⟩ | ⟨o1, o2, h1, h2, h3⟩
      · rw [h1, h2]; rfl
      · rw [h1, h2]
        simp only [bind, Except.bind, h3, ih]

theorem walkDiag_congr (b1 b2 : Board) (hocc : ∀ i j, (b1 i j).isSome = (b2 i j).isSome)
    (sx sy stepX stepY dx : Int) :
    ∀ (fuel : Nat) (i : Int),
      walkDiag b1 sx sy stepX stepY dx fuel i = walkDiag b2 sx sy stepX stepY dx fuel i := by
  intro fuel
  induction fuel with
  | zero => intro i; rfl
  | succ n ih =>
    intro i
    rw [walkDiag, walkDiag]
    by_cases h : i < dx
    · rw [if_pos h, if_pos h]
      rcases cell_congr b1 b2 hocc (sx + i * stepX) (sy + i * stepY) with
        ⟨h1, h2⟩ | ⟨o1, o2, h1, h2, h3⟩
      · rw [h1, h2]; rfl
      · rw [h1, h2]
        simp only [bind, Except.bind, h3, ih]
    · rw [if_neg h, if_neg h]

theorem walkFile_congr (b1 b2 : Board) (hocc : ∀ i j, (b1 i j).isSome = (b2 i j).isSome)
    (y endX step : Int) (fuel : Nat) (x : Int) :
    walkFile b1 y endX step fuel x = walkFile b2 y endX step fuel x := by
  rw [walkFile_eq_walkRank, walkFile_eq_walkRank]
  exact walkRank_congr _ _ (fun i j => hocc j i) y endX step fuel x

theorem pawn_congr (b1 b2 : Board) (hocc : ∀ i j, (b1 i j).isSome = (b2 i j).isSome)
    (w f : Bool) (sx sy ex ey : Int) :
    Pawn.isValidMove w f sx sy ex ey b1 = Pawn.isValidMove w f sx sy ex ey b2 := by
  unfold Pawn.isValidMove
  generalize (if w = true then (-1 : Int) else 1) = d
  have hnone : ∀ o1 o2 : Option Piece, o1.isSome = o2.isSome → o1.isNone = o2.isNone := by
    intro o1 o2 h
    cases o1 <;> cases o2 <;> simp_all
  rcases cell_congr b1 b2 hocc ex ey with ⟨h1, h2⟩ | ⟨o1, o2, h1, h2, h3⟩
  · simp only [h1, h2, bind, Except.bind, pure, Except.pure]
  · rcases cell_congr b1 b2 hocc (sx + d) sy with ⟨h4, h5⟩ | ⟨o3, o4, h4, h5, h6⟩
    · simp only [h1, h2, h4, h5, bind, Except.bind, pure, Except.pure, h3, hnone o1 o2 h3]
    · simp only [h1, h2, h4, h5, bind, Except.bind, pure, Except.pure, h3, hnone o1 o2 h3,
        hnone o3 o4 h6]

/-- The piece rules read the grid only for occupancy. -/
theorem isValidMove_congr (b1 b2 : Board) (hocc : ∀ i j, (b1 i j).isSome = (b2 i j).isSome)
    (p : Piece) (sx sy ex ey : Int) :
    p.isValidMove sx sy ex ey b1 = p.isValidMove sx sy ex ey b2 := by
  cases p with
  | rook w =>
    simp only [Piece.isValidMove, Rook.isValidMove, walkRank_congr b1 b2 hocc,
      walkFile_congr b1 b2 hocc]
  | knight w => rfl
  | bishop w =>
    simp only [Piece.isValidMove, Bishop.isValidMove, walkDiag_congr b1 b2 hocc]
  | queen w =>
    simp only [Piece.isValidMove, Queen.isValidMove, walkRank_congr b1 b2 hocc,
      walkFile_congr b1 b2 hocc, walkDiag_congr b1 b2 hocc]
  | king w => rfl
  | pawn w f => exact pawn_congr b1 b2 hocc w f sx sy ex ey

theorem move_getSymbol (p : Piece) : p.move.getSymbol = p.getSymbol := by
  cases p <;> rfl

theorem flagTwin_occ (w : Bool) (b1 b2 : Board) (h : flagTwin w b1 b2) :
    ∀ i j, (b1 i j).isSome = (b2 i j).isSome := by
  intro i j
  rcases h i j with h1 | ⟨p, h1, h2, _⟩
  · rw [h1]
  · rw [h1, h2]; rfl

theorem findKingInRow_twin (w : Bool) (b1 b2 : Board) (h : flagTwin w b1 b2) (sym : Char)
    (row : Fin 8) :
    ∀ cols, findKingInRow b1 sym row cols = findKingInRow b2 sym row cols := by
  intro cols
  induction cols with
  | nil => rfl
  | cons col cols ih =>
    rw [findKingInRow, findKingInRow]
    rcases h row col with h1 | ⟨p, h1, h2, _⟩
    · rw [h1, ih]
    · rw [h1, h2]
      simp only [move_getSymbol, ih]

theorem findKing_twin (w : Bool) (b1 b2 : Board) (h : flagTwin w b1 b2) (sym : Char) :
    ∀ rows king, findKing b1 sym rows king = findKing b2 sym rows king := by
  intro rows
  induction rows with
  | nil => intro king; rfl
  | cons row rows ih =>
    intro king
    rw [findKing, findKing, findKingInRow_twin w b1 b2 h sym row idx8]
    cases findKingInRow b2 sym row idx8 with
    | none => exact ih king
    | some col => exact ih _

theorem attackInRow_twin (w : Bool) (b1 b2 : Board) (h : flagTwin w b1 b2)
    (king : Option (Int × Int)) (row : Fin 8) :
    ∀ cols, attackInRow b1 w king row cols = attackInRow b2 w king row cols := by
  intro cols
  induction cols with
  | nil => rfl
  | cons col cols ih =>
    rw [attackInRow, attackInRow, ih]
    rcases h row col with h1 | ⟨p, h1, h2, h3⟩
    · rw [h1]
      cases b2 row col with
      | none => rfl
      | some q =>
        simp only []
        cases king with
        | none => rfl
        | some k =>
          obtain ⟨kx, ky⟩ := k
          simp only [isValidMove_congr b1 b2 (flagTwin_occ w b1 b2 h) q]
    · have hp : ¬ (((w && p.getSymbol.isLower) || (!w && p.getSymbol.isUpper)) = true) := by
        rw [wrong_owner_iff]; exact not_not.mpr h3
      rw [h1, h2]
      simp only [move_getSymbol, if_neg hp]

theorem attackScan_twin (w : Bool) (b1 b2 : Board) (h : flagTwin w b1 b2)
    (king : Option (Int × Int)) :
    ∀ rows, attackScan b1 w king rows = attackScan b2 w king rows := by
  intro rows
  induction rows with
  | nil => rfl
  | cons row rows ih =>
    rw [attackScan, attackScan, attackInRow_twin w b1 b2 h king row idx8, ih]

/-- `isCheck` of a colour does not depend on the moved-flags of that colour's own pawns. -/
theorem isCheck_twin (w : Bool) (b1 b2 : Board) (h : flagTwin w b1 b2) :
    isCheck b1 w = isCheck b2 w := by
  unfold isCheck
  simp only []
  rw [findKing_twin w b1 b2 h, attackScan_twin w b1 b2 h]

/-- A move that `movePiece` accepts was a pass of the scan of `isCheckmate`, on a grid that
differs from the resulting one only in the moved-flag of the piece. -/
theorem checkmate_sound_of (board b1 b2 : Board) (w : Bool) (sx sy ex ey : Int)
    (hc : isCheckmate board w = .ok (true, b1))
    (hm : movePiece board sx sy ex ey w = .ok (true, b2)) : isCheck b2 w = .ok true := by
  obtain ⟨_, hcase⟩ := isCheckmate_ok board b1 w true hc
  rcases hcase with ⟨_, _, hall⟩ | ⟨hr, _⟩
  · obtain ⟨s1, s2, e1, e2, p, hs1, hs2, he1, he2, hne, hsrc, hpw, _, hv, hb⟩ :=
      movePiece_true_fin board b2 sx sy ex ey w hm
    subst hs1; subst hs2; subst he1; subst he2
    have hown : ownPieceAt board w s1 s2 = true :=
      (ownPieceAt_iff board w s1 s2).mpr ⟨p, hsrc, hpw⟩
    have ht := hall s1 s2 hown e1 e2
    rw [tryMove_eq, hsrc] at ht
    simp only [hv] at ht
    have hne2 : ¬ (s1 = e1 ∧ s2 = e2) := fun hc => hne ⟨hc.1.symm, hc.2.symm⟩
    have htwin : flagTwin w (hypothetical board s1 s2 e1 e2) b2 := by
      intro i j
      rw [hypothetical_eq_relocate board s1 s2 e1 e2 hne2, hb]
      unfold relocate
      by_cases hie : i = e1 ∧ j = e2
      · have his : ¬ (i = s1 ∧ j = s2) := by
          rintro ⟨h1, h2⟩
          exact hne ⟨hie.1.symm.trans h1, hie.2.symm.trans h2⟩
        rw [if_pos hie, if_neg his, if_pos hie]
        exact Or.inr ⟨p, hsrc, rfl, hpw⟩
      · rw [if_neg hie]
        by_cases his : i = s1 ∧ j = s2
        · rw [if_pos his, if_pos his]; exact Or.inl rfl
        · rw [if_neg his, if_neg his, if_neg hie]; exact Or.inl rfl
    rw [← isCheck_twin w _ _ htwin]
    rcases hck : isCheck (hypothetical board s1 s2 e1 e2) w with e | c
    · rw [hck] at ht; cases ht
    · rw [hck] at ht
      cases c with
      | true => rfl
      | false =>
        simp only [] at ht
        injection ht with ht
        injection ht with h1 _
        cases h1
  · cases hr

/-! ## `movePiece` effect, and the sliding pieces on their own square -/

/-- C2: after a `movePiece` call that returns true the destination holds the piece that was on
the origin: a pawn of the same colour with `isFirstMove` false if that piece is a pawn, the
very same piece otherwise; the origin is empty, and every other square is as before;
whatever stood on the destination is gone. -/
theorem movePiece_success (board board' : Board) (sx sy ex ey : Int) (w : Bool)
    (h : movePiece board sx sy ex ey w = .ok (true, board')) :
    ∃ p, board.occupant sx sy = some p ∧
      board'.occupant ex ey = some p.move ∧
      (∀ c f, p = .pawn c f → board'.occupant ex ey = some (.pawn c false)) ∧
      ((∀ c f, p ≠ .pawn c f) → board'.occupant ex ey = some p) ∧
      board'.occupant sx sy = none ∧
      ∀ x y : Int, ¬ (x = sx ∧ y = sy) → ¬ (x = ex ∧ y = ey) →
        board'.occupant x y = board.occupant x y := by
  obtain ⟨p, h1, h2, h3, h4⟩ := movePiece_true_occ board board' sx sy ex ey w h
  refine ⟨p, h1, h2, ?_, ?_, h3, h4⟩
  · intro c f hp
    rw [h2, hp]
    rfl
  · intro hp
    rw [h2]
    cases p with
    | pawn c f => exact absurd rfl (hp c f)
    | rook c => rfl
    | knight c => rfl
    | bishop c => rfl
    | queen c => rfl
    | king c => rfl

theorem movePiece_success_witness :
    ∃ board', movePiece initializeBoard 6 4 4 4 true = .ok (true, board') ∧
      initializeBoard.occupant 6 4 = some (.pawn true true) ∧
      board'.occupant 4 4 = some (.pawn true false) ∧
      ∃ p, initializeBoard.occupant 6 4 = some p ∧
        board'.occupant 4 4 = some p.move ∧
        (∀ c f, p = .pawn c f → board'.occupant 4 4 = some (.pawn c false)) ∧
        ((∀ c f, p ≠ .pawn c f) → board'.occupant 4 4 = some p) ∧
        board'.occupant 6 4 = none ∧
        ∀ x y : Int, ¬ (x = 6 ∧ y = 4) → ¬ (x = 4 ∧ y = 4) →
          board'.occupant x y = initializeBoard.occupant x y :=
  ⟨_, rfl, by decide, by decide, movePiece_success initializeBoard _ 6 4 4 4 true rfl⟩

set_option maxRecDepth 100000 in
/-- C4 (failing input): Black bishop on (0,0), Black king on (0,4), White king on (7,4).
Black has accepted moves (for instance the bishop to (1,1)), yet `isStalemate(Black)` does
not return false: its first pass asks the bishop on (0,0) about the move to (0,0), and line
60 divides by `dx = 0`. -/
theorem isStalemate_bishop_first :
    acceptsMove bishopFirst false 0 0 1 1 ∧
      staleEndY bishopFirst 0 0 0 idx8 = .error .divisionByZero ∧
      isStalemate bishopFirst false = .error .divisionByZero := by
  refine ⟨by decide, by decide, by decide⟩

/-- C8 (failing input): on the starting position the bishop on (0,2) is asked about the move
to its own square, an in-bounds pair.  The bishop rule of the specification fails there
(`|Δrank| = |Δfile| = 0`), so the claim needs the answer not to be true; the code gives no
answer at all: line 60 divides by `dx = 0`. -/
theorem bishop_own_square_faults :
    initializeBoard 0 2 = some (.bishop false) ∧ onBoard 0 2 ∧
      ¬ bishopRule initializeBoard 0 2 0 2 ∧
      Bishop.isValidMove 0 2 0 2 initializeBoard = .error .divisionByZero := by
  refine ⟨by decide, by decide, ?_, bishop_same_square _ 0 2⟩
  unfold bishopRule
  simp

/-- Between two distinct squares of the board the three rules return values and the queen's
is the disjunction of the rook's and the bishop's. -/
theorem queen_distinct (board : Board) (sx sy ex ey : Int) (hs : onBoard sx sy)
    (he : onBoard ex ey) (hne : ¬ (sx = ex ∧ sy = ey)) :
    ∃ q r b, Queen.isValidMove sx sy ex ey board = .ok q ∧
      Rook.isValidMove sx sy ex ey board = .ok r ∧
      Bishop.isValidMove sx sy ex ey board = .ok b ∧ q = (r || b) := by
  obtain ⟨q, hq⟩ := queen_total board sx sy ex ey hs he hne
  obtain ⟨r, hr, _⟩ := rook_distinct board sx sy ex ey hs he hne
  obtain ⟨b, hb, _⟩ := bishop_distinct board sx sy ex ey hs he hne
  refine ⟨q, r, b, hq, hr, hb, ?_⟩
  have h := queen_true_iff board sx sy ex ey
  rw [hq, hr, hb] at h
  simp only [Except.ok.injEq] at h
  clear hq hr hb hs he hne
  revert h
  cases q <;> cases r <;> cases b <;> decide

/-- C9 (failing input): on the starting position the queen on (0,3) is asked about the move to
its own square, an in-bounds pair.  None of `Queen::isValidMove`, `Rook::isValidMove`,
`Bishop::isValidMove` returns a value there: lines 82, 19 and 60 divide by zero, so the
queen's answer cannot be compared with the rook's and the bishop's. -/
theorem queen_own_square_faults :
    initializeBoard 0 3 = some (.queen false) ∧ onBoard 0 3 ∧
      Queen.isValidMove 0 3 0 3 initializeBoard = .error .divisionByZero ∧
      Rook.isValidMove 0 3 0 3 initializeBoard = .error .divisionByZero ∧
      Bishop.isValidMove 0 3 0 3 initializeBoard = .error .divisionByZero :=
  ⟨by decide, by decide, queen_same_square _ 0 3, rook_same_square _ 0 3,
    bishop_same_square _ 0 3⟩

end Chess
